import Mathlib

/-!
Verification development for the schema-driven binary codec subsystem of
the zookeeper-ui repository (Express server embedded in the repository,
plus the React helpers that mirror its path-resolution logic).

The JavaScript source is shallowly embedded:
  - JavaScript strings are modelled as Lean `String`s; the JS string
    primitives used by the source (`startsWith`, `slice`, `split`, `trim`)
    are modelled as executable functions on `String.data` (a JS string is
    a sequence of code units; all payloads exercised here are ASCII).
  - JS numbers are modelled as exact rationals `ℚ`; every claim-relevant
    numeric value is an integer below 2^53 where IEEE doubles are exact.
  - Buffers are `List Nat` (byte values).
  - protobufjs runtime behaviour (wire parsing, `toObject`, `fromObject`,
    serialization, `Long`) is embedded for representative registered
    message types, following the library semantics the server relies on.
  - Exceptions are modelled with `Option`/`Except`; a JS `try/catch`
    becomes an explicit match on the error case.
-/

/-! ## JS string primitive models -/

/-- Model of JS `a.startsWith(b)`. -/
def jsStartsWith (s pre : String) : Bool :=
  pre.data.isPrefixOf s.data

/-- Model of JS `s.slice(n)` (drop the first `n` code units). -/
def jsDropChars (s : String) (n : Nat) : String :=
  ⟨s.data.drop n⟩

/-- Split a character list at every occurrence of `c`, keeping empty pieces,
as JS `String.prototype.split` does (`"".split` gives `[""]`,
`"/a/".split('/')` gives `["", "a", ""]`). -/
def splitCharOn (c : Char) : List Char → List (List Char)
  | [] => [[]]
  | x :: xs =>
    if x = c then [] :: splitCharOn c xs
    else
      match splitCharOn c xs with
      | [] => [[x]]
      | h :: t => (x :: h) :: t

/-- Model of JS `s.split(c)` for a single-character separator. -/
def jsSplitOn (c : Char) (s : String) : List String :=
  (splitCharOn c s.data).map (fun l => ⟨l⟩)

/-- Model of JS `s.trim()` (strip leading and trailing whitespace). -/
def jsTrim (s : String) : String :=
  ⟨((s.data.dropWhile Char.isWhitespace).reverse.dropWhile Char.isWhitespace).reverse⟩

/-! ## Decimal printing and parsing (JS `Number.prototype.toString`,
`Long.prototype.toString`, `BigInt.prototype.toString` all print decimal). -/

/-- Decimal digits of `n`, most significant first. -/
def natToDigits (n : Nat) : List Char :=
  if h : n < 10 then [Char.ofNat (48 + n)]
  else natToDigits (n / 10) ++ [Char.ofNat (48 + n % 10)]
  decreasing_by exact Nat.div_lt_self (by omega) (by omega)

/-- Decimal rendering of an integer, as JS renders integral numbers,
64-bit longs and bigints. -/
def intToDec (i : Int) : String :=
  if i < 0 then ⟨'-' :: natToDigits i.natAbs⟩ else ⟨natToDigits i.natAbs⟩

/-- Numeric value of a list of decimal digits. -/
def digitsVal (l : List Char) : Nat :=
  l.foldl (fun acc c => 10 * acc + (c.toNat - 48)) 0

/-- Strip one optional leading minus sign, reporting whether it was there
(the `-?` part of both regexes in `convertStringNumbers`). -/
def stripNeg (l : List Char) : Bool × List Char :=
  match l with
  | c :: rest => if c = '-' then (true, rest) else (false, l)
  | [] => (false, [])

/-- Test for the regex `/^-?\d+$/` used by `convertStringNumbers`. -/
def isIntString (s : String) : Bool :=
  let core := (stripNeg s.data).2
  core ≠ [] && core.all (·.isDigit)

/-- Value of a string matching `/^-?\d+$/` under JS `Number` (exact for
every integer; the rounded double only ever matters through
`Number.isSafeInteger`, which is false exactly when the exact value is
outside the safe range, so the exact model is observationally faithful). -/
def intStrVal (s : String) : Int :=
  let (neg, core) := stripNeg s.data
  if neg then -(digitsVal core : Int) else (digitsVal core : Int)

/-- Test for the regex `/^-?\d+\.\d+$/` used by `convertStringNumbers`. -/
def isDecString (s : String) : Bool :=
  let core := (stripNeg s.data).2
  let intPart := core.takeWhile (·.isDigit)
  let rest := core.dropWhile (·.isDigit)
  intPart ≠ [] &&
    match rest with
    | '.' :: frac => frac ≠ [] && frac.all (·.isDigit)
    | _ => false

/-- Value of a string matching `/^-?\d+\.\d+$/` under JS `parseFloat`,
modelled as the exact rational (IEEE rounding is immaterial to the claims:
only the fact of conversion to a number is ever observed). -/
def decStrVal (s : String) : ℚ :=
  let (neg, core) := stripNeg s.data
  let intPart := core.takeWhile (·.isDigit)
  let frac := (core.dropWhile (·.isDigit)).drop 1
  let mag : ℚ := (digitsVal intPart : ℚ) + (digitsVal frac : ℚ) / ((10 : ℚ) ^ frac.length)
  if neg then -mag else mag

/-- Model of JS `Number.isSafeInteger` on an exact integer value. -/
def isSafeInteger (i : Int) : Bool :=
  i.natAbs ≤ 2 ^ 53 - 1

/-! ## JSON-safe values -/

/-- A JSON-safe JavaScript value, as handled by `convertStringNumbers`
(`undefined` is kept separate from `null` because the source tests for
both). -/
inductive JVal where
  | jnull
  | jundef
  | jbool (b : Bool)
  | jnum (q : ℚ)
  | jstr (s : String)
  | jarr (xs : List JVal)
  | jobj (fs : List (String × JVal))
  deriving Repr

/-- Embedding of `convertStringNumbers` (server `index.js`): recursively
convert numeric strings to numbers before protobuf encoding.  Integer
strings become numbers only when `Number.isSafeInteger` holds; decimal
strings go through `parseFloat`; all other values are returned unchanged
(arrays and objects are rebuilt from converted members). -/
def convertStringNumbers : JVal → JVal
  | .jnull => .jnull
  | .jundef => .jundef
  | .jarr xs => .jarr (xs.attach.map fun x => convertStringNumbers x.1)
  | .jobj fs => .jobj (fs.attach.map fun kv => (kv.1.1, convertStringNumbers kv.1.2))
  | .jstr s =>
    if isIntString s then
      if isSafeInteger (intStrVal s) then .jnum (intStrVal s) else .jstr s
    else if isDecString s then .jnum (decStrVal s)
    else .jstr s
  | .jbool b => .jbool b
  | .jnum q => .jnum q
decreasing_by
  · have := List.sizeOf_lt_of_mem x.2
    simp only [JVal.jarr.sizeOf_spec]
    omega
  · have h1 := List.sizeOf_lt_of_mem kv.2
    have h2 : sizeOf kv.1.2 < sizeOf kv.1 := by
      obtain ⟨a, b⟩ := kv.1
      simp only [Prod.mk.sizeOf_spec]
      omega
    simp only [JVal.jobj.sizeOf_spec]
    omega

theorem convertStringNumbers_arr (xs : List JVal) :
    convertStringNumbers (.jarr xs) = .jarr (xs.map convertStringNumbers) := by
  rw [convertStringNumbers]
  simp [List.attach, List.attachWith, List.map_pmap]

theorem convertStringNumbers_obj (fs : List (String × JVal)) :
    convertStringNumbers (.jobj fs) =
      .jobj (fs.map fun kv => (kv.1, convertStringNumbers kv.2)) := by
  rw [convertStringNumbers]
  simp [List.attach, List.attachWith, List.map_pmap]

theorem convertStringNumbers_str (s : String) :
    convertStringNumbers (.jstr s) =
      if isIntString s then
        if isSafeInteger (intStrVal s) then .jnum (intStrVal s) else .jstr s
      else if isDecString s then .jnum (decStrVal s)
      else .jstr s := by
  rw [convertStringNumbers]

/-- Size-based induction principle for `JVal` that reaches through the
nested lists. -/
theorem JVal.inductionOn (P : JVal → Prop)
    (hnull : P .jnull) (hundef : P .jundef)
    (hbool : ∀ b, P (.jbool b)) (hnum : ∀ q, P (.jnum q))
    (hstr : ∀ s, P (.jstr s))
    (harr : ∀ xs, (∀ x ∈ xs, P x) → P (.jarr xs))
    (hobj : ∀ fs, (∀ kv ∈ fs, P kv.2) → P (.jobj fs)) :
    ∀ v, P v
  | .jnull => hnull
  | .jundef => hundef
  | .jbool b => hbool b
  | .jnum q => hnum q
  | .jstr s => hstr s
  | .jarr xs => harr xs (fun x hx =>
      JVal.inductionOn P hnull hundef hbool hnum hstr harr hobj x)
  | .jobj fs => hobj fs (fun kv hkv =>
      JVal.inductionOn P hnull hundef hbool hnum hstr harr hobj kv.2)
decreasing_by
  · have := List.sizeOf_lt_of_mem hx
    simp only [JVal.jarr.sizeOf_spec]
    omega
  · have h1 := List.sizeOf_lt_of_mem hkv
    have h2 : sizeOf kv.2 < sizeOf kv := by
      obtain ⟨a, b⟩ := kv
      simp only [Prod.mk.sizeOf_spec]
      omega
    simp only [JVal.jobj.sizeOf_spec]
    omega

/-! ## C10: normalization is idempotent and structure-preserving -/

theorem convertStringNumbers_null : convertStringNumbers .jnull = .jnull := by
  rw [convertStringNumbers]

theorem convertStringNumbers_undef : convertStringNumbers .jundef = .jundef := by
  rw [convertStringNumbers]

theorem convertStringNumbers_bool (b : Bool) :
    convertStringNumbers (.jbool b) = .jbool b := by
  rw [convertStringNumbers]

theorem convertStringNumbers_num (q : ℚ) :
    convertStringNumbers (.jnum q) = .jnum q := by
  rw [convertStringNumbers]

/-- Relation stating that `y` has the same shape as `x`: every non-string
leaf is unchanged, object key lists and array lengths are preserved, and a
string leaf is either unchanged or replaced by a number. -/
inductive ShapePreserved : JVal → JVal → Prop where
  | nullSame : ShapePreserved .jnull .jnull
  | undefSame : ShapePreserved .jundef .jundef
  | boolSame (b : Bool) : ShapePreserved (.jbool b) (.jbool b)
  | numSame (q : ℚ) : ShapePreserved (.jnum q) (.jnum q)
  | strSame (s : String) : ShapePreserved (.jstr s) (.jstr s)
  | strToNum (s : String) (q : ℚ) : ShapePreserved (.jstr s) (.jnum q)
  | arrSame (xs ys : List JVal) :
      List.Forall₂ ShapePreserved xs ys → ShapePreserved (.jarr xs) (.jarr ys)
  | objSame (fs gs : List (String × JVal)) :
      fs.map Prod.fst = gs.map Prod.fst →
      List.Forall₂ ShapePreserved (fs.map Prod.snd) (gs.map Prod.snd) →
      ShapePreserved (.jobj fs) (.jobj gs)

theorem convertStringNumbers_idem (x : JVal) :
    convertStringNumbers (convertStringNumbers x) = convertStringNumbers x := by
  induction x using JVal.inductionOn with
  | hnull => rw [convertStringNumbers_null, convertStringNumbers_null]
  | hundef => rw [convertStringNumbers_undef, convertStringNumbers_undef]
  | hbool b => rw [convertStringNumbers_bool, convertStringNumbers_bool]
  | hnum q => rw [convertStringNumbers_num, convertStringNumbers_num]
  | hstr s =>
    rw [convertStringNumbers_str]
    split
    · split
      · rw [convertStringNumbers_num]
      · rw [convertStringNumbers_str]
        simp_all
    · split
      · rw [convertStringNumbers_num]
      · rw [convertStringNumbers_str]
        simp_all
  | harr xs ih =>
    rw [convertStringNumbers_arr, convertStringNumbers_arr, List.map_map]
    congr 1
    exact List.map_congr_left fun x hx => ih x hx
  | hobj fs ih =>
    rw [convertStringNumbers_obj, convertStringNumbers_obj, List.map_map]
    congr 1
    exact List.map_congr_left fun kv hkv => by
      simp only [Function.comp_apply]
      exact congrArg (Prod.mk kv.1) (ih kv hkv)

theorem shapePreserved_convert (x : JVal) :
    ShapePreserved x (convertStringNumbers x) := by
  induction x using JVal.inductionOn with
  | hnull => rw [convertStringNumbers_null]; exact .nullSame
  | hundef => rw [convertStringNumbers_undef]; exact .undefSame
  | hbool b => rw [convertStringNumbers_bool]; exact .boolSame b
  | hnum q => rw [convertStringNumbers_num]; exact .numSame q
  | hstr s =>
    rw [convertStringNumbers_str]
    split
    · split
      · exact .strToNum _ _
      · exact .strSame _
    · split
      · exact .strToNum _ _
      · exact .strSame _
  | harr xs ih =>
    rw [convertStringNumbers_arr]
    refine .arrSame _ _ ?_
    refine List.forall₂_map_right_iff.mpr ?_
    exact List.forall₂_same.mpr ih
  | hobj fs ih =>
    rw [convertStringNumbers_obj]
    refine .objSame _ _ ?_ ?_
    · rw [List.map_map]
      rfl
    · rw [List.map_map]
      refine List.forall₂_map_right_iff.mpr ?_
      refine List.forall₂_map_left_iff.mpr ?_
      exact List.forall₂_same.mpr fun kv hkv => ih kv hkv

/-- C10: the string-number normalization applied before encoding is
idempotent, and it preserves the shape of its input — object key lists,
array lengths, and all non-string leaves (including null and undefined)
are unchanged; only string leaves may be replaced, and only by numbers. -/
theorem c10_normalization_idempotent_shape_preserving (x : JVal) :
    convertStringNumbers (convertStringNumbers x) = convertStringNumbers x ∧
      ShapePreserved x (convertStringNumbers x) :=
  ⟨convertStringNumbers_idem x, shapePreserved_convert x⟩

/-! ## C2: which strings the encode normalization converts -/

/-- Spec-side reading of the integer pattern: an optional minus sign
followed by one or more decimal digits. -/
def IntPattern (s : String) : Prop :=
  ∃ (neg : Bool) (ds : List Char), ds ≠ [] ∧ (∀ c ∈ ds, c.isDigit) ∧
    s.data = (if neg then ['-'] else []) ++ ds

/-- Spec-side reading of the decimal pattern: an optional minus sign, one
or more digits, a dot, and one or more digits. -/
def DecPattern (s : String) : Prop :=
  ∃ (neg : Bool) (d1 d2 : List Char), d1 ≠ [] ∧ d2 ≠ [] ∧
    (∀ c ∈ d1, c.isDigit) ∧ (∀ c ∈ d2, c.isDigit) ∧
    s.data = (if neg then ['-'] else []) ++ d1 ++ '.' :: d2

theorem stripNeg_sign_append (neg : Bool) (l : List Char)
    (hl : l ≠ []) (hd : ∀ c, l.head? = some c → c.isDigit) :
    stripNeg ((if neg then ['-'] else []) ++ l) = (neg, l) := by
  cases neg with
  | true => simp [stripNeg]
  | false =>
    cases l with
    | nil => exact absurd rfl hl
    | cons c rest =>
      have hc : c.isDigit := hd c rfl
      have : c ≠ '-' := by
        intro h
        rw [h] at hc
        exact absurd hc (by decide)
      simp [stripNeg, this]

theorem takeWhile_append_cons (p : Char → Bool) (l1 : List Char) (x : Char)
    (l2 : List Char) (h1 : ∀ c ∈ l1, p c = true) (hx : p x = false) :
    (l1 ++ x :: l2).takeWhile p = l1 := by
  induction l1 with
  | nil => simp [List.takeWhile, hx]
  | cons a t ih =>
    have ha : p a = true := h1 a (List.mem_cons_self a t)
    simp only [List.cons_append, List.takeWhile_cons, ha, if_true]
    rw [ih fun c hc => h1 c (List.mem_cons_of_mem a hc)]

theorem dropWhile_append_cons (p : Char → Bool) (l1 : List Char) (x : Char)
    (l2 : List Char) (h1 : ∀ c ∈ l1, p c = true) (hx : p x = false) :
    (l1 ++ x :: l2).dropWhile p = x :: l2 := by
  induction l1 with
  | nil => simp [List.dropWhile, hx]
  | cons a t ih =>
    have ha : p a = true := h1 a (List.mem_cons_self a t)
    simp only [List.cons_append, List.dropWhile_cons, ha, if_true]
    exact ih fun c hc => h1 c (List.mem_cons_of_mem a hc)

theorem isIntString_of_pattern {s : String} {neg : Bool} {ds : List Char}
    (hne : ds ≠ []) (hd : ∀ c ∈ ds, c.isDigit)
    (hs : s.data = (if neg then ['-'] else []) ++ ds) :
    isIntString s = true := by
  unfold isIntString
  rw [hs, stripNeg_sign_append neg ds hne
    (fun c hc => hd c (List.mem_of_mem_head? hc))]
  simp only [Bool.and_eq_true, decide_eq_true_eq, ne_eq, List.all_eq_true]
  exact ⟨hne, fun c hc => hd c hc⟩

theorem intStrVal_of_pattern {s : String} {neg : Bool} {ds : List Char}
    (hne : ds ≠ []) (hd : ∀ c ∈ ds, c.isDigit)
    (hs : s.data = (if neg then ['-'] else []) ++ ds) :
    intStrVal s = if neg then -(digitsVal ds : Int) else (digitsVal ds : Int) := by
  unfold intStrVal
  rw [hs, stripNeg_sign_append neg ds hne
    (fun c hc => hd c (List.mem_of_mem_head? hc))]

theorem not_isIntString_of_decPattern {s : String} (h : DecPattern s) :
    isIntString s = false := by
  obtain ⟨neg, d1, d2, h1, h2, hd1, hd2, hs⟩ := h
  unfold isIntString
  rw [hs, List.append_assoc] at *
  rw [stripNeg_sign_append neg (d1 ++ '.' :: d2)
    (by simp) (by
      intro c hc
      cases d1 with
      | nil => exact absurd rfl h1
      | cons a t =>
        simp only [List.cons_append, List.head?_cons, Option.some.injEq] at hc
        exact hc ▸ hd1 a (List.mem_cons_self a t))]
  simp only [Bool.and_eq_false_iff]
  right
  rw [List.all_eq_false]
  refine ⟨'.', by simp, by decide⟩

theorem stripNeg_append_eq (l : List Char) :
    (if (stripNeg l).1 then ['-'] else []) ++ (stripNeg l).2 = l := by
  match l with
  | [] => rfl
  | c :: rest =>
    by_cases hc : c = '-'
    · subst hc
      simp [stripNeg]
    · simp [stripNeg, hc]

theorem intPattern_of_isIntString {s : String} (h : isIntString s = true) :
    IntPattern s := by
  unfold isIntString at h
  simp only [Bool.and_eq_true, decide_eq_true_eq, ne_eq, List.all_eq_true] at h
  exact ⟨(stripNeg s.data).1, (stripNeg s.data).2, h.1,
    fun c hc => h.2 c hc, (stripNeg_append_eq s.data).symm⟩

theorem decPattern_of_isDecString {s : String} (h : isDecString s = true) :
    DecPattern s := by
  unfold isDecString at h
  simp only [Bool.and_eq_true, decide_eq_true_eq, ne_eq] at h
  obtain ⟨hne, hrest⟩ := h
  set core := (stripNeg s.data).2 with hcore
  cases hdrop : core.dropWhile (·.isDigit) with
  | nil => rw [hdrop] at hrest; exact absurd hrest (by simp)
  | cons x frac =>
    rw [hdrop] at hrest
    by_cases hx : x = '.'
    · subst hx
      simp only [Bool.and_eq_true, decide_eq_true_eq, ne_eq, List.all_eq_true] at hrest
      refine ⟨(stripNeg s.data).1, core.takeWhile (·.isDigit), frac, hne, hrest.1,
        fun c hc => List.mem_takeWhile_imp hc, fun c hc => hrest.2 c hc, ?_⟩
      conv_lhs => rw [← stripNeg_append_eq s.data]
      rw [← hcore]
      conv_lhs => rw [← List.takeWhile_append_dropWhile (p := fun x : Char => x.isDigit)
        (l := core), hdrop]
      rw [List.append_assoc]
    · exact absurd hrest (by simp [hx])

theorem isDecString_of_pattern {s : String} {neg : Bool} {d1 d2 : List Char}
    (h1 : d1 ≠ []) (h2 : d2 ≠ []) (hd1 : ∀ c ∈ d1, c.isDigit)
    (hd2 : ∀ c ∈ d2, c.isDigit)
    (hs : s.data = (if neg then ['-'] else []) ++ d1 ++ '.' :: d2) :
    isDecString s = true := by
  unfold isDecString
  rw [hs, List.append_assoc,
    stripNeg_sign_append neg (d1 ++ '.' :: d2) (by simp) (by
      intro c hc
      cases d1 with
      | nil => exact absurd rfl h1
      | cons a t =>
        simp only [List.cons_append, List.head?_cons, Option.some.injEq] at hc
        exact hc ▸ hd1 a (List.mem_cons_self a t))]
  dsimp only
  rw [takeWhile_append_cons (fun x => x.isDigit) d1 '.' d2 (fun c hc => hd1 c hc)
      (by decide),
    dropWhile_append_cons (fun x => x.isDigit) d1 '.' d2 (fun c hc => hd1 c hc)
      (by decide)]
  simp only [Bool.and_eq_true, decide_eq_true_eq, ne_eq, List.all_eq_true]
  exact ⟨h1, h2, fun c hc => hd2 c hc⟩

theorem decStrVal_of_pattern {s : String} {neg : Bool} {d1 d2 : List Char}
    (h1 : d1 ≠ []) (h2 : d2 ≠ []) (hd1 : ∀ c ∈ d1, c.isDigit)
    (hd2 : ∀ c ∈ d2, c.isDigit)
    (hs : s.data = (if neg then ['-'] else []) ++ d1 ++ '.' :: d2) :
    decStrVal s = (if neg then (-1 : ℚ) else 1) *
      ((digitsVal d1 : ℚ) + (digitsVal d2 : ℚ) / (10 : ℚ) ^ d2.length) := by
  unfold decStrVal
  rw [hs, List.append_assoc,
    stripNeg_sign_append neg (d1 ++ '.' :: d2) (by simp) (by
      intro c hc
      cases d1 with
      | nil => exact absurd rfl h1
      | cons a t =>
        simp only [List.cons_append, List.head?_cons, Option.some.injEq] at hc
        exact hc ▸ hd1 a (List.mem_cons_self a t))]
  dsimp only
  rw [takeWhile_append_cons (fun x => x.isDigit) d1 '.' d2 (fun c hc => hd1 c hc)
      (by decide),
    dropWhile_append_cons (fun x => x.isDigit) d1 '.' d2 (fun c hc => hd1 c hc)
      (by decide)]
  simp only [List.drop_one, List.tail_cons]
  cases neg <;> simp

/-- C2: the recursive normalization applied before encoding converts a
string leaf matching the integer pattern to a number exactly when that
number is a safely-representable integer, converts a string leaf matching
the decimal pattern to a (floating-point) number, and passes every other
string — including integer strings outside the safe range, such as
"12345678901234567890" — through unchanged as a string. -/
theorem c2_encode_normalization (s : String) :
    (∀ (neg : Bool) (ds : List Char), ds ≠ [] → (∀ c ∈ ds, c.isDigit) →
      s.data = (if neg then ['-'] else []) ++ ds →
      convertStringNumbers (.jstr s) =
        (if (if neg then -(digitsVal ds : Int) else (digitsVal ds : Int)).natAbs
            ≤ 2 ^ 53 - 1
         then .jnum ((if neg then -(digitsVal ds : Int) else (digitsVal ds : Int) : Int) : ℚ)
         else .jstr s)) ∧
    (∀ (neg : Bool) (d1 d2 : List Char), d1 ≠ [] → d2 ≠ [] →
      (∀ c ∈ d1, c.isDigit) → (∀ c ∈ d2, c.isDigit) →
      s.data = (if neg then ['-'] else []) ++ d1 ++ '.' :: d2 →
      convertStringNumbers (.jstr s) =
        .jnum ((if neg then (-1 : ℚ) else 1) *
          ((digitsVal d1 : ℚ) + (digitsVal d2 : ℚ) / (10 : ℚ) ^ d2.length))) ∧
    (¬ IntPattern s → ¬ DecPattern s → convertStringNumbers (.jstr s) = .jstr s) ∧
    convertStringNumbers (.jstr "12345678901234567890") =
      .jstr "12345678901234567890" := by
  refine ⟨?_, ?_, ?_, ?_⟩
  · intro neg ds hne hd hs
    rw [convertStringNumbers_str, if_pos (isIntString_of_pattern hne hd hs),
      intStrVal_of_pattern hne hd hs]
    by_cases hsafe :
        (if neg then -(digitsVal ds : Int) else (digitsVal ds : Int)).natAbs ≤
          2 ^ 53 - 1 <;>
      simp [isSafeInteger, hsafe]
  · intro neg d1 d2 h1 h2 hd1 hd2 hs
    rw [convertStringNumbers_str,
      if_neg (by
        rw [not_isIntString_of_decPattern ⟨neg, d1, d2, h1, h2, hd1, hd2, hs⟩]
        simp),
      if_pos (isDecString_of_pattern h1 h2 hd1 hd2 hs),
      decStrVal_of_pattern h1 h2 hd1 hd2 hs]
  · intro hint hdec
    rw [convertStringNumbers_str,
      if_neg (fun h => hint (intPattern_of_isIntString h)),
      if_neg (fun h => hdec (decPattern_of_isDecString h))]
  · have h1 : isIntString "12345678901234567890" = true := by decide
    have h2 : isSafeInteger (intStrVal "12345678901234567890") = false := by decide
    rw [convertStringNumbers_str]
    simp [h1, h2]

/-- Witness for C2 at concrete inputs: "-12" becomes the number -12,
"12345678901234567890" (unsafe) stays a string, "3.5" becomes a number,
and "a1" passes through unchanged. -/
theorem c2_encode_normalization_witness :
    convertStringNumbers (.jstr "-12") = .jnum (-12 : ℚ) ∧
    convertStringNumbers (.jstr "3.5") = .jnum (35 / 10 : ℚ) ∧
    convertStringNumbers (.jstr "a1") = .jstr "a1" ∧
    convertStringNumbers (.jstr "12345678901234567890") =
      .jstr "12345678901234567890" := by
  refine ⟨?_, ?_, ?_, ?_⟩
  · have h := (c2_encode_normalization "-12").1 true ['1', '2']
      (by decide) (by decide) (by decide)
    rw [h]
    have c1 : '1'.toNat = 49 := rfl
    have c2 : '2'.toNat = 50 := rfl
    norm_num [digitsVal, c1, c2]
  · have h := (c2_encode_normalization "3.5").2.1 false ['3'] ['5']
      (by decide) (by decide) (by decide) (by decide) (by decide)
    rw [h]
    have c3 : '3'.toNat = 51 := rfl
    have c5 : '5'.toNat = 53 := rfl
    norm_num [digitsVal, c3, c5]
  · refine (c2_encode_normalization "a1").2.2.1 ?_ ?_
    · intro h
      have := isIntString_of_pattern h.choose_spec.choose_spec.1
        h.choose_spec.choose_spec.2.1 h.choose_spec.choose_spec.2.2
      revert this
      decide
    · intro h
      obtain ⟨neg, d1, d2, h1, h2, hd1, hd2, hs⟩ := h
      have := isDecString_of_pattern h1 h2 hd1 hd2 hs
      revert this
      decide
  · exact (c2_encode_normalization "12345678901234567890").2.2.2

/-! ## C4: segment-strategy path resolution (`getMessageTypeForPath` on the
server and `getAutoTypeForPath` in the UI) -/

/-- Model of `Map.prototype.set`: replace the value of an existing key in
place (preserving insertion order), otherwise append. -/
def mapSet (m : List (String × String)) (k v : String) : List (String × String) :=
  if (m.lookup k).isSome then m.map (fun kv => if kv.1 = k then (k, v) else kv)
  else m ++ [(k, v)]

/-- Process one `segment:Type` entry of `ZK_PATH_TYPE_MAP`: split on the
colon, trim both parts, and insert only when both are non-empty. -/
def parseEntry (acc : List (String × String)) (m : String) :
    List (String × String) :=
  match (jsSplitOn ':' m).map jsTrim with
  | seg :: ty :: _ =>
    if seg.data ≠ [] ∧ ty.data ≠ [] then mapSet acc seg ty else acc
  | _ => acc

/-- Embedding of the `ZK_PATH_TYPE_MAP` parser in the server startup code:
split the configuration on commas and fold the entries into a map. -/
def parseZkMap (cfg : String) : List (String × String) :=
  if cfg.data = [] then []
  else (jsSplitOn ',' cfg).foldl parseEntry []

/-- Embedding of `getMessageTypeForPath` (server `index.js`): strip the
configured root path when set and matching, split into non-empty segments
and look the first segment up in the mapping (`get(...) || null`). -/
def getMessageTypeForPath (rootPath : String) (map : List (String × String))
    (zkPath : String) : Option String :=
  if zkPath.data = [] ∨ map = [] then none
  else
    let relativePath :=
      if rootPath.data ≠ [] ∧ jsStartsWith zkPath rootPath then
        jsDropChars zkPath rootPath.data.length
      else zkPath
    let segments := (jsSplitOn '/' relativePath).filter (fun s => s.data ≠ [])
    match segments with
    | [] => none
    | first :: _ =>
      match map.lookup first with
      | some t => if t.data = [] then none else some t
      | none => none

/-- A value read off the client's mapping table by `table[segment]`: a
configured own entry (a string), or a value inherited from
`Object.prototype` — the table is the JSON-parsed object served by
`/api/config` (`Object.fromEntries(zkPathTypeMap)`), so a bracket read
whose name is not an own key falls through to the prototype. Every
inherited value (a builtin function, or the prototype object itself for
the name `__proto__`) is truthy in JS. -/
inductive PropVal where
  | str (s : String)
  | inherited (name : String)
  deriving DecidableEq

/-- The property names every plain JS object inherits from
`Object.prototype`. -/
def objectProtoKeys : List String :=
  ["constructor", "hasOwnProperty", "isPrototypeOf", "propertyIsEnumerable",
   "toLocaleString", "toString", "valueOf", "__proto__",
   "__defineGetter__", "__defineSetter__", "__lookupGetter__",
   "__lookupSetter__"]

/-- Bracket read `obj[k]` on a JSON-parsed plain object with string own
values: an own entry shadows the prototype; otherwise the read continues
on `Object.prototype`. `none` is JS `undefined`. -/
def plainObjGet (own : List (String × String)) (k : String) : Option PropVal :=
  match own.lookup k with
  | some v => some (.str v)
  | none =>
    if objectProtoKeys.contains k then some (.inherited k) else none

/-- Embedding of `getAutoTypeForPath` (NodeView component): the segment
strategy on the client, reading the JSON-parsed mapping object —
`zkPathTypeMappings[segments[0]] || null`, a plain-object bracket read
that can hit `Object.prototype` (the early return fires only on own keys:
`Object.keys(...).length === 0`). An own empty-string value and
`undefined` are falsy, giving `null`; inherited values are truthy and
returned as-is. -/
def getAutoTypeForPath (path rootPath : String)
    (table : List (String × String)) : Option PropVal :=
  if table = [] then none
  else
    let relativePath :=
      if rootPath.data ≠ [] ∧ jsStartsWith path rootPath then
        jsDropChars path rootPath.data.length
      else path
    let segments := (jsSplitOn '/' relativePath).filter (fun s => s.data ≠ [])
    match segments with
    | first :: _ =>
      match plainObjGet table first with
      | some (.str t) => if t.data = [] then none else some (.str t)
      | some (.inherited n) => some (.inherited n)
      | none => none
    | [] => none

/-- Spec-side segment strategy, read off the specification text: strip the
root prefix if the path starts with it, split the remainder into
`/`-delimited non-empty segments, and return the type mapped to the first
segment (none when there are no segments or the first segment is not a
key of the table). -/
def segmentResolveSpec (rootPath : String) (table : List (String × String))
    (p : String) : Option String :=
  let rel :=
    if jsStartsWith p rootPath then jsDropChars p rootPath.data.length else p
  match (jsSplitOn '/' rel).filter (fun s => s.data ≠ []) with
  | [] => none
  | first :: _ => table.lookup first

/-- The first non-empty `/`-delimited segment of the path after stripping
the root prefix when the path starts with it (the segment both resolvers
and the spec consult). -/
def firstSeg (rootPath p : String) : Option String :=
  ((jsSplitOn '/' (if jsStartsWith p rootPath then
      jsDropChars p rootPath.data.length else p)).filter
    (fun s => s.data ≠ [])).head?

theorem isPrefixOf_nil (l : List Char) : [].isPrefixOf l = true := by
  cases l <;> rfl

theorem lookup_mem_str (m : List (String × String)) (k v : String)
    (h : m.lookup k = some v) : (k, v) ∈ m := by
  induction m with
  | nil => exact absurd h (by simp [List.lookup])
  | cons kv rest ih =>
    obtain ⟨a, b⟩ := kv
    rw [List.lookup] at h
    cases hbeq : (k == a) with
    | true =>
      simp only [hbeq] at h
      cases h
      have hka : k = a := eq_of_beq hbeq
      subst hka
      exact List.mem_cons_self _ _
    | false =>
      simp only [hbeq] at h
      exact List.mem_cons_of_mem _ (ih h)

theorem mapSet_values {P : String → Prop} (m : List (String × String))
    (k v : String) (hm : ∀ kv ∈ m, P kv.2) (hv : P v) :
    ∀ kv ∈ mapSet m k v, P kv.2 := by
  intro kv hkv
  unfold mapSet at hkv
  split at hkv
  · obtain ⟨kv', hkv', heq⟩ := List.mem_map.mp hkv
    by_cases h : kv'.1 = k
    · rw [if_pos h] at heq
      rw [← heq]
      exact hv
    · rw [if_neg h] at heq
      rw [← heq]
      exact hm kv' hkv'
  · rcases List.mem_append.mp hkv with h | h
    · exact hm kv h
    · simp only [List.mem_singleton] at h
      rw [h]
      exact hv

theorem parseEntry_values (acc : List (String × String)) (m : String)
    (hacc : ∀ kv ∈ acc, kv.2.data ≠ []) :
    ∀ kv ∈ parseEntry acc m, kv.2.data ≠ [] := by
  intro kv hkv
  unfold parseEntry at hkv
  split at hkv
  · split at hkv
    · next hok =>
        exact mapSet_values (P := fun s => s.data ≠ []) acc _ _ hacc hok.2 kv hkv
    · exact hacc kv hkv
  · exact hacc kv hkv

theorem parseZkMap_values (cfg : String) :
    ∀ kv ∈ parseZkMap cfg, kv.2.data ≠ [] := by
  unfold parseZkMap
  split
  · simp
  · generalize jsSplitOn ',' cfg = entries
    have main : ∀ (l : List String) (acc : List (String × String)),
        (∀ kv ∈ acc, kv.2.data ≠ []) →
        ∀ kv ∈ l.foldl parseEntry acc, kv.2.data ≠ [] := by
      intro l
      induction l with
      | nil => intro acc hacc; exact hacc
      | cons m rest ih =>
        intro acc hacc
        rw [List.foldl_cons]
        exact ih (parseEntry acc m) (parseEntry_values acc m hacc)
    exact main entries [] (by simp)

theorem stripGuard_eq (rootPath p : String) :
    (if rootPath.data ≠ [] ∧ jsStartsWith p rootPath then
      jsDropChars p rootPath.data.length
    else p) =
    (if jsStartsWith p rootPath then jsDropChars p rootPath.data.length
     else p) := by
  by_cases hr : rootPath.data = []
  · have hsw : jsStartsWith p rootPath = true := by
      unfold jsStartsWith
      rw [hr]
      exact isPrefixOf_nil p.data
    rw [if_neg (by simp [hr]), if_pos hsw]
    unfold jsDropChars
    rw [hr]
    rfl
  · by_cases hsw : jsStartsWith p rootPath
    · rw [if_pos ⟨hr, hsw⟩, if_pos hsw]
    · rw [if_neg (by simp [hsw]), if_neg (by simp [hsw])]

theorem plainObjGet_own (own : List (String × String)) (k t : String)
    (h : own.lookup k = some t) : plainObjGet own k = some (.str t) := by
  unfold plainObjGet
  rw [h]

theorem plainObjGet_proto_miss (own : List (String × String)) (k : String)
    (h1 : own.lookup k = none) (h2 : objectProtoKeys.contains k = true) :
    plainObjGet own k = some (.inherited k) := by
  unfold plainObjGet
  rw [h1, h2]
  rfl

theorem plainObjGet_none (own : List (String × String)) (k : String)
    (h1 : own.lookup k = none) (h2 : objectProtoKeys.contains k = false) :
    plainObjGet own k = none := by
  unfold plainObjGet
  rw [h1, h2]
  rfl

/-- Counterexample to C4 as stated: with the non-empty mapping
`{backends: pkg.Backend}` and root prefix `/app`, the client resolver on
`/constructor/node-1` returns the value inherited from
`Object.prototype` (truthy, so `|| null` keeps it) although the first
segment `constructor` is not a key of the table — refuting "none when
the first segment is not a key in the table" for `getAutoTypeForPath`. -/
theorem c4_segment_strategy_counterexample :
    getAutoTypeForPath "/constructor/node-1" "/app"
      (parseZkMap "backends:pkg.Backend") =
      some (.inherited "constructor") ∧
    (segmentResolveSpec "/app" (parseZkMap "backends:pkg.Backend")
      "/constructor/node-1").map PropVal.str = none ∧
    some (PropVal.inherited "constructor") ≠ (none : Option PropVal) := by
  refine ⟨by decide, by decide, by decide⟩

/-- C4 amended: the server resolver (`Map.get`) implements exactly the
spec's segment strategy for every configuration, root path, and path, and
the spec's concrete examples hold; the client resolver agrees with the
spec whenever the first segment, if it names an `Object.prototype`
property, is also a configured key — but with a non-empty table an
unmapped first segment that names an `Object.prototype` property
resolves to the inherited truthy value instead of none. -/
theorem c4_segment_strategy_amended :
    (∀ (cfg rootPath p : String),
      getMessageTypeForPath rootPath (parseZkMap cfg) p =
        segmentResolveSpec rootPath (parseZkMap cfg) p) ∧
    (∀ (cfg rootPath p : String),
      (∀ first, firstSeg rootPath p = some first →
        objectProtoKeys.contains first = true →
        ((parseZkMap cfg).lookup first).isSome = true) →
      getAutoTypeForPath p rootPath (parseZkMap cfg) =
        (segmentResolveSpec rootPath (parseZkMap cfg) p).map PropVal.str) ∧
    (∀ (cfg rootPath p first : String),
      parseZkMap cfg ≠ [] →
      firstSeg rootPath p = some first →
      (parseZkMap cfg).lookup first = none →
      objectProtoKeys.contains first = true →
      getAutoTypeForPath p rootPath (parseZkMap cfg) =
        some (.inherited first)) ∧
    getMessageTypeForPath "/app" (parseZkMap "backends:pkg.Backend")
      "/app/backends/node-1" = some "pkg.Backend" ∧
    getMessageTypeForPath "/app" (parseZkMap "backends:pkg.Backend")
      "/other/backends/node-1" = none := by
  refine ⟨?_, ?_, ?_, by decide, by decide⟩
  · intro cfg rootPath p
    have hvals := parseZkMap_values cfg
    have hlookup : ∀ first : String,
        (match (parseZkMap cfg).lookup first with
          | some t => if t.data = [] then none else some t
          | none => none) = (parseZkMap cfg).lookup first := by
      intro first
      cases hl : (parseZkMap cfg).lookup first with
      | none => rfl
      | some t =>
        have := hvals (first, t) (lookup_mem_str _ _ _ hl)
        simp only
        rw [if_neg this]
    unfold getMessageTypeForPath segmentResolveSpec
    dsimp only
    by_cases hp : p.data = []
    · rw [if_pos (Or.inl hp)]
      have : (if jsStartsWith p rootPath then
          jsDropChars p rootPath.data.length else p).data = [] := by
        split
        · unfold jsDropChars
          rw [hp]
          simp
        · exact hp
      rw [show (jsSplitOn '/' (if jsStartsWith p rootPath then
            jsDropChars p rootPath.data.length else p)) =
          [⟨[]⟩] from by
        unfold jsSplitOn
        rw [this]
        rfl]
      simp
    · by_cases hm : parseZkMap cfg = []
      · rw [if_pos (Or.inr hm), hm]
        split <;> simp [List.lookup]
      · rw [if_neg (by simp [hp, hm])]
        simp only [stripGuard_eq]
        cases hseg : (jsSplitOn '/' (if jsStartsWith p rootPath then
            jsDropChars p rootPath.data.length else p)).filter
              (fun s => s.data ≠ []) with
        | nil => rfl
        | cons first rest => exact hlookup first
  · intro cfg rootPath p H
    unfold getAutoTypeForPath segmentResolveSpec
    dsimp only
    by_cases hm : parseZkMap cfg = []
    · rw [if_pos hm, hm]
      split <;> simp [List.lookup]
    · rw [if_neg hm]
      simp only [stripGuard_eq]
      cases hseg : (jsSplitOn '/' (if jsStartsWith p rootPath then
          jsDropChars p rootPath.data.length else p)).filter
            (fun s => s.data ≠ []) with
      | nil => rfl
      | cons first rest =>
        dsimp only
        have hfs : firstSeg rootPath p = some first := by
          unfold firstSeg
          rw [hseg]
          rfl
        cases hl : (parseZkMap cfg).lookup first with
        | some t =>
          have ht := parseZkMap_values cfg (first, t) (lookup_mem_str _ _ _ hl)
          rw [plainObjGet_own (parseZkMap cfg) first t hl]
          dsimp only
          rw [if_neg ht]
          rfl
        | none =>
          have hnk : objectProtoKeys.contains first = false := by
            cases hc : objectProtoKeys.contains first with
            | false => rfl
            | true =>
              have hh := H first hfs hc
              rw [hl] at hh
              simp at hh
          rw [plainObjGet_none (parseZkMap cfg) first hl hnk]
          rfl
  · intro cfg rootPath p first hm hfs hl hpk
    unfold firstSeg at hfs
    unfold getAutoTypeForPath
    dsimp only
    rw [if_neg hm]
    simp only [stripGuard_eq]
    cases hseg : (jsSplitOn '/' (if jsStartsWith p rootPath then
        jsDropChars p rootPath.data.length else p)).filter
          (fun s => s.data ≠ []) with
    | nil =>
      rw [hseg] at hfs
      exact absurd hfs (by simp)
    | cons f rest =>
      dsimp only
      rw [hseg] at hfs
      have hf : f = first := by
        simpa using hfs
      subst hf
      rw [plainObjGet_proto_miss (parseZkMap cfg) f hl hpk]

/-- Witness for the amended C4 at concrete inputs: the client resolver
agrees with the spec on the mapped first segment `backends`, and leaks
the inherited `Object.prototype` value for the unmapped first segment
`toString`. -/
theorem c4_segment_strategy_witness :
    getAutoTypeForPath "/app/backends/node-1" "/app"
      (parseZkMap "backends:pkg.Backend") =
      (segmentResolveSpec "/app" (parseZkMap "backends:pkg.Backend")
        "/app/backends/node-1").map PropVal.str ∧
    getAutoTypeForPath "/app/toString/x" "/app"
      (parseZkMap "backends:pkg.Backend") = some (.inherited "toString") := by
  constructor
  · refine c4_segment_strategy_amended.2.1 "backends:pkg.Backend" "/app"
      "/app/backends/node-1" ?_
    intro first hfs hc
    rw [show firstSeg "/app" "/app/backends/node-1" = some "backends" from
      by decide] at hfs
    injection hfs with hf
    subst hf
    decide
  · exact c4_segment_strategy_amended.2.2.1 "backends:pkg.Backend" "/app"
      "/app/toString/x" "toString" (by decide) (by decide) (by decide)
      (by decide)

/-! ## C5: prefix-strategy path resolution (ordered `pathMappings` and the
`find` call in the alternate server's decode handler) -/

/-- One entry of `PROTO_PATH_MAPPING`: a path prefix and the protobuf type
it maps to. -/
structure PathMapping where
  path : String
  type : String

/-- Embedding of `pathMappings.find(m => path.startsWith(m.path))` in the
decode handler: first entry in configuration order whose path prefix
matches. -/
def findPathMapping (ms : List PathMapping) (p : String) : Option PathMapping :=
  ms.find? (fun m => jsStartsWith p m.path)

/-- The type produced by the prefix strategy (`mapping.type` when a
mapping is found, none otherwise). -/
def prefixResolve (ms : List PathMapping) (p : String) : Option String :=
  (findPathMapping ms p).map (fun m => m.type)

theorem find?_append_of_none {α} (f : α → Bool) (pre l : List α)
    (h : ∀ x ∈ pre, f x = false) : (pre ++ l).find? f = l.find? f := by
  induction pre with
  | nil => rfl
  | cons a t ih =>
    rw [List.cons_append, List.find?_cons_of_neg _ (by
      rw [h a (List.mem_cons_self a t)]
      exact Bool.false_ne_true)]
    exact ih fun x hx => h x (List.mem_cons_of_mem a hx)

/-- C5: the prefix strategy returns the type of the first entry in
configuration order whose prefix the path starts with (not the longest or
most specific match), and none exactly when no entry's prefix is a prefix
of the path; the spec's concrete examples hold. -/
theorem c5_prefix_strategy :
    (∀ (ms : List PathMapping) (p : String),
      (prefixResolve ms p = none ↔
        ∀ m ∈ ms, jsStartsWith p m.path = false) ∧
      (∀ t, prefixResolve ms p = some t ↔
        ∃ (pre suf : List PathMapping) (m : PathMapping),
          ms = pre ++ m :: suf ∧ jsStartsWith p m.path = true ∧
          m.type = t ∧ ∀ m' ∈ pre, jsStartsWith p m'.path = false)) ∧
    prefixResolve [⟨"/config/users", "UserConfig"⟩] "/config/users/user1" =
      some "UserConfig" ∧
    prefixResolve [⟨"/config/users", "UserConfig"⟩] "/config/other" = none := by
  refine ⟨?_, by decide, by decide⟩
  intro ms p
  constructor
  · unfold prefixResolve findPathMapping
    rw [Option.map_eq_none', List.find?_eq_none]
    constructor
    · intro h m hm
      have := h m hm
      simp only [Bool.not_eq_true] at this
      exact this
    · intro h m hm
      rw [h m hm]
      exact Bool.false_ne_true
  · intro t
    constructor
    · intro h
      unfold prefixResolve findPathMapping at h
      induction ms with
      | nil => exact absurd h (by simp)
      | cons m0 rest ih =>
        by_cases hm0 : jsStartsWith p m0.path = true
        · rw [@List.find?_cons_of_pos _ (fun m => jsStartsWith p m.path)
            m0 rest hm0] at h
          simp only [Option.map, Option.some.injEq] at h
          exact ⟨[], rest, m0, rfl, hm0, h, by simp⟩
        · rw [@List.find?_cons_of_neg _ (fun m => jsStartsWith p m.path)
            m0 rest hm0] at h
          obtain ⟨pre, suf, m, hms, hsw, hty, hpre⟩ := ih h
          refine ⟨m0 :: pre, suf, m, by rw [hms, List.cons_append],
            hsw, hty, ?_⟩
          intro m' hm'
          rcases List.mem_cons.mp hm' with h' | h'
          · subst h'
            exact Bool.not_eq_true _ |>.mp hm0
          · exact hpre m' h'
    · intro ⟨pre, suf, m, hms, hsw, hty, hpre⟩
      unfold prefixResolve findPathMapping
      rw [hms, find?_append_of_none _ pre _ hpre,
        @List.find?_cons_of_pos _ (fun m' => jsStartsWith p m'.path) m suf hsw]
      exact congrArg some hty

/-! ## C6: import-path resolver precedence (`protoRoot.resolvePath`) -/

/-- One step of Node `path.posix.normalize` segment resolution: `..` pops
the previous segment (except above the root of an absolute path, or onto
an unresolved leading `..` of a relative path); other segments are kept. -/
def normStep (abs : Bool) (stack : List (List Char)) (seg : List Char) :
    List (List Char) :=
  if seg = ['.', '.'] then
    match stack.getLast? with
    | some last => if last = ['.', '.'] then stack ++ [seg] else stack.dropLast
    | none => if abs then [] else [seg]
  else stack ++ [seg]

/-- Model of Node `path.posix.normalize`: collapse slashes, drop `.`,
resolve `..`. -/
def normalizePath (l : List Char) : String :=
  let abs := l.head? = some '/'
  let segs := (splitCharOn '/' l).filter (fun s => s ≠ [] ∧ s ≠ ['.'])
  let body := List.intercalate ['/'] (segs.foldl (normStep abs) [])
  if abs then ⟨'/' :: body⟩ else if body = [] then "." else ⟨body⟩

/-- Model of Node `path.posix.join` for two arguments: drop empty parts,
join with a slash, and normalize. -/
def pathJoin (a b : String) : String :=
  if a.data = [] ∧ b.data = [] then "."
  else if a.data = [] then normalizePath b.data
  else if b.data = [] then normalizePath a.data
  else normalizePath (a.data ++ '/' :: b.data)

/-- Model of Node `path.posix.dirname`: everything before the last
non-trailing slash, with `.` for slashless paths and `/` preserved as the
root's parent. -/
def dirnameStr (p : String) : String :=
  let r1 := p.data.reverse.dropWhile (· = '/')
  let r3 := (r1.dropWhile (· ≠ '/')).dropWhile (· = '/')
  if r3 = [] then (if p.data.head? = some '/' then "/" else ".") else ⟨r3.reverse⟩

/-- Fixed configuration consumed by the resolver: the schema directory
(`PROTO_DIR`), the configured import-prefix string
(`PROTO_IMPORT_PREFIX`), the auxiliary google-api directory
(`GOOGLE_PROTOS_DIR`), and the install directory of the protobufjs
library (`dirname(require.resolve('protobufjs'))`). -/
structure ResolveCfg where
  protoDir : String
  importPfx : String
  googleDir : String
  pbjsDir : String

/-- Embedding of the custom `protoRoot.resolvePath` function installed by
`loadProtos`: absolute targets pass through; `google/protobuf/` resolves
against the protobufjs install; `google/api/` against the auxiliary
directory; a configured import-prefix is stripped and resolved against the
schema directory; other non-root imports resolve against the importing
file's directory; everything else against the schema directory. -/
def resolvePathImpl (cfg : ResolveCfg) (origin target : String) : String :=
  if jsStartsWith target "/" then target
  else if jsStartsWith target "google/protobuf/" then pathJoin cfg.pbjsDir target
  else if jsStartsWith target "google/api/" then pathJoin cfg.googleDir target
  else if cfg.importPfx.data ≠ [] ∧ jsStartsWith target cfg.importPfx then
    pathJoin cfg.protoDir (jsDropChars target cfg.importPfx.data.length)
  else if origin.data ≠ [] then pathJoin (dirnameStr origin) target
  else pathJoin cfg.protoDir target

/-- Condition of the spec's numbered resolution rule `i` (rule 6, index 5,
is the catch-all). -/
def ruleCond (cfg : ResolveCfg) (origin target : String) : Nat → Prop
  | 0 => jsStartsWith target "/" = true
  | 1 => jsStartsWith target "google/protobuf/" = true
  | 2 => jsStartsWith target "google/api/" = true
  | 3 => cfg.importPfx.data ≠ [] ∧ jsStartsWith target cfg.importPfx = true
  | 4 => origin.data ≠ []
  | _ => True

/-- Result prescribed by the spec's numbered resolution rule `i`. -/
def ruleAction (cfg : ResolveCfg) (origin target : String) : Nat → String
  | 0 => target
  | 1 => pathJoin cfg.pbjsDir target
  | 2 => pathJoin cfg.googleDir target
  | 3 => pathJoin cfg.protoDir (jsDropChars target cfg.importPfx.data.length)
  | 4 => pathJoin (dirnameStr origin) target
  | _ => pathJoin cfg.protoDir target

/-- C6: for every configuration, importing file and import target, the
resolver applies exactly the first rule of the spec's ordered list whose
condition holds: some rule index `i < 6` has its condition satisfied, all
earlier conditions fail, and the resolver returns exactly rule `i`'s
result. -/
theorem c6_import_resolver_precedence (cfg : ResolveCfg)
    (origin target : String) :
    ∃ i : Nat, i < 6 ∧ ruleCond cfg origin target i ∧
      (∀ j < i, ¬ ruleCond cfg origin target j) ∧
      resolvePathImpl cfg origin target = ruleAction cfg origin target i := by
  unfold resolvePathImpl
  by_cases h0 : jsStartsWith target "/" = true
  · exact ⟨0, by omega, h0, by omega, by rw [if_pos h0]; rfl⟩
  · by_cases h1 : jsStartsWith target "google/protobuf/" = true
    · refine ⟨1, by omega, h1, ?_, by rw [if_neg h0, if_pos h1]; rfl⟩
      intro j hj
      interval_cases j
      · exact h0
    · by_cases h2 : jsStartsWith target "google/api/" = true
      · refine ⟨2, by omega, h2, ?_, by rw [if_neg h0, if_neg h1, if_pos h2]; rfl⟩
        intro j hj
        interval_cases j
        · exact h0
        · exact h1
      · by_cases h3 : cfg.importPfx.data ≠ [] ∧
            jsStartsWith target cfg.importPfx = true
        · refine ⟨3, by omega, h3, ?_,
            by rw [if_neg h0, if_neg h1, if_neg h2, if_pos h3]; rfl⟩
          intro j hj
          interval_cases j
          · exact h0
          · exact h1
          · exact h2
        · by_cases h4 : origin.data ≠ []
          · refine ⟨4, by omega, h4, ?_,
              by rw [if_neg h0, if_neg h1, if_neg h2, if_neg h3, if_pos h4]; rfl⟩
            intro j hj
            interval_cases j
            · exact h0
            · exact h1
            · exact h2
            · exact h3
          · refine ⟨5, by omega, trivial, ?_,
              by rw [if_neg h0, if_neg h1, if_neg h2, if_neg h3, if_neg h4]; rfl⟩
            intro j hj
            interval_cases j
            · exact h0
            · exact h1
            · exact h2
            · exact h3
            · exact h4

/-! ## C7: metadata formatter (`formatStat` in the server) -/

/-- Raw representations a 64-bit stat field can arrive in: a Node
`Buffer`, a long-wrapper object whose `toString`/`valueOf` yield an
integer, a plain JS number, or null/undefined. -/
inductive RawVal where
  | vbuf (bytes : List Nat)
  | vlong (v : Int)
  | vnum (v : Int)
  | vnull

/-- Two's-complement reading of a 64-bit unsigned value. -/
def toSigned64 (n : Nat) : Int :=
  if n % 2 ^ 64 < 2 ^ 63 then ((n % 2 ^ 64 : Nat) : Int)
  else ((n % 2 ^ 64 : Nat) : Int) - 2 ^ 64

/-- Model of `Buffer.prototype.readBigInt64BE`: big-endian signed read of
the first eight bytes, raising `ERR_OUT_OF_RANGE` on a shorter buffer. -/
def readBigInt64BE (bytes : List Nat) : Except Unit Int :=
  if 8 ≤ bytes.length then
    .ok (toSigned64 ((bytes.take 8).foldl (fun acc b => 256 * acc + b % 256) 0))
  else .error ()

/-- The number `formatDate` extracts from a raw value (`Number(...)` on
the branches of the source; `Number(null) = 0` because `typeof null`
is `"object"`), or the error a short buffer raises. -/
def statNumOf : RawVal → Except Unit Int
  | .vbuf bs => readBigInt64BE bs
  | .vlong v => .ok v
  | .vnum v => .ok v
  | .vnull => .ok 0

/-- Left-pad the decimal digits of `n` with zeros to the given width. -/
def padZeros (n width : Nat) : List Char :=
  let ds := natToDigits n
  List.replicate (width - ds.length) '0' ++ ds

/-- Model of `Date.prototype.toISOString` on an epoch-millisecond value
inside the valid `Date` range, using the standard civil-from-days
calendar algorithm (years above 9999 use the expanded `+YYYYYY` form). -/
def isoString (ms : Int) : String :=
  let days := ms.ediv 86400000
  let rem := (ms.emod 86400000).toNat
  let z := days + 719468
  let era := z.ediv 146097
  let doe := (z - era * 146097).toNat
  let yoe := (doe - doe / 1460 + doe / 36524 - doe / 146096) / 365
  let y := (yoe : Int) + era * 400
  let doy := doe - (365 * yoe + yoe / 4 - yoe / 100)
  let mp := (5 * doy + 2) / 153
  let d := doy - (153 * mp + 2) / 5 + 1
  let m := if mp < 10 then mp + 3 else mp - 9
  let year := y + (if m ≤ 2 then 1 else 0)
  let yearChars :=
    if year > 9999 then '+' :: padZeros year.toNat 6
    else padZeros year.toNat 4
  let hh := rem / 3600000
  let mi := rem % 3600000 / 60000
  let ss := rem % 60000 / 1000
  let mmm := rem % 1000
  ⟨yearChars ++ '-' :: padZeros m 2 ++ '-' :: padZeros d 2 ++
    'T' :: padZeros hh 2 ++ ':' :: padZeros mi 2 ++ ':' :: padZeros ss 2 ++
    '.' :: padZeros mmm 3 ++ ['Z']⟩

/-- Embedding of the `formatDate` helper inside `formatStat`: interpret
the raw value as a number (a short buffer's read raises and is caught),
treat zero and negative values as unset (`null`), let an out-of-range
`Date` construction raise (caught, `null`), and otherwise produce the ISO
string. -/
def formatDate (val : RawVal) : Option String :=
  match statNumOf val with
  | .error _ => none
  | .ok num =>
    if num ≤ 0 then none
    else if 8640000000000000 < num then none
    else some (isoString num)

/-- Embedding of the `toString` helper inside `formatStat`: falsy values
(null, undefined, the number 0) give "0"; a buffer is read as a signed
64-bit big-endian integer (a raised range error is caught to "0"); long
wrappers and numbers render in decimal. -/
def toStringSafe : RawVal → String
  | .vnull => "0"
  | .vnum v => if v = 0 then "0" else intToDec v
  | .vbuf bs =>
    match readBigInt64BE bs with
    | .ok n => intToDec n
    | .error _ => "0"
  | .vlong v => intToDec v

/-- The raw stat record handed to `formatStat` (64-bit fields in any raw
representation; 32-bit counters arrive as plain numbers). -/
structure RawStat where
  czxid : RawVal
  mzxid : RawVal
  ctime : RawVal
  mtime : RawVal
  version : Int
  cversion : Int
  aversion : Int
  ephemeralOwner : RawVal
  dataLength : Int
  numChildren : Int
  pzxid : RawVal

/-- The JSON-safe stat shape produced by `formatStat`. -/
structure FormattedStat where
  czxid : String
  mzxid : String
  ctime : Option String
  mtime : Option String
  version : Int
  cversion : Int
  aversion : Int
  ephemeralOwner : String
  dataLength : Int
  numChildren : Int
  pzxid : String

/-- Embedding of `formatStat` (server `index.js`). -/
def formatStat (st : RawStat) : FormattedStat :=
  { czxid := toStringSafe st.czxid
    mzxid := toStringSafe st.mzxid
    ctime := formatDate st.ctime
    mtime := formatDate st.mtime
    version := st.version
    cversion := st.cversion
    aversion := st.aversion
    ephemeralOwner := toStringSafe st.ephemeralOwner
    dataLength := st.dataLength
    numChildren := st.numChildren
    pzxid := toStringSafe st.pzxid }

theorem natToDigits_all_digits (n : Nat) : ∀ c ∈ natToDigits n, c.isDigit := by
  induction n using Nat.strong_induction_on with
  | _ n ih =>
    rw [natToDigits]
    split
    · intro c hc
      simp only [List.mem_singleton] at hc
      subst hc
      next h => interval_cases n <;> decide
    · intro c hc
      rcases List.mem_append.mp hc with h | h
      · exact ih (n / 10) (Nat.div_lt_self (by omega) (by omega)) c h
      · simp only [List.mem_singleton] at h
        subst h
        have hm : n % 10 < 10 := Nat.mod_lt _ (by omega)
        generalize n % 10 = k at hm ⊢
        interval_cases k <;> decide

theorem natToDigits_ne_nil (n : Nat) : natToDigits n ≠ [] := by
  rw [natToDigits]
  split
  · exact List.cons_ne_nil _ _
  · simp

theorem intPattern_intToDec (i : Int) : IntPattern (intToDec i) := by
  unfold intToDec
  split
  · exact ⟨true, natToDigits i.natAbs, natToDigits_ne_nil _,
      natToDigits_all_digits _, rfl⟩
  · exact ⟨false, natToDigits i.natAbs, natToDigits_ne_nil _,
      natToDigits_all_digits _, rfl⟩

theorem intPattern_zeroStr : IntPattern "0" :=
  ⟨false, ['0'], by decide, by decide, rfl⟩

theorem intPattern_toStringSafe (v : RawVal) : IntPattern (toStringSafe v) := by
  cases v with
  | vnull => exact intPattern_zeroStr
  | vnum v =>
    show IntPattern (if v = 0 then "0" else intToDec v)
    split
    · exact intPattern_zeroStr
    · exact intPattern_intToDec v
  | vbuf bs =>
    show IntPattern (match readBigInt64BE bs with
      | .ok n => intToDec n
      | .error _ => "0")
    cases readBigInt64BE bs with
    | ok n => exact intPattern_intToDec n
    | error e => exact intPattern_zeroStr
  | vlong v => exact intPattern_intToDec v

/-- C7: the metadata formatter is total on every raw representation
(buffer, long wrapper, plain number, null — buffers too short to read are
caught): the transaction-id and owner fields always render as decimal
strings (optionally signed digit strings, "0" for anything
uninterpretable, including the numeric owner value 0), and the timestamp
fields render as the ISO-8601 string of the interpreted value exactly
when that value is positive and within the `Date` range, and as `null`
otherwise. -/
theorem c7_metadata_formatter (st : RawStat) :
    IntPattern (formatStat st).czxid ∧
    IntPattern (formatStat st).mzxid ∧
    IntPattern (formatStat st).pzxid ∧
    IntPattern (formatStat st).ephemeralOwner ∧
    (st.ephemeralOwner = .vnum 0 → (formatStat st).ephemeralOwner = "0") ∧
    (∀ bs, st.czxid = .vbuf bs → bs.length < 8 →
      (formatStat st).czxid = "0") ∧
    ((formatStat st).ctime = none ↔
      ¬ ∃ n, statNumOf st.ctime = .ok n ∧ 0 < n ∧ n ≤ 8640000000000000) ∧
    (∀ n, statNumOf st.ctime = .ok n → 0 < n → n ≤ 8640000000000000 →
      (formatStat st).ctime = some (isoString n)) ∧
    ((formatStat st).mtime = none ↔
      ¬ ∃ n, statNumOf st.mtime = .ok n ∧ 0 < n ∧ n ≤ 8640000000000000) ∧
    (∀ n, statNumOf st.mtime = .ok n → 0 < n → n ≤ 8640000000000000 →
      (formatStat st).mtime = some (isoString n)) := by
  have hdate : ∀ v : RawVal,
      (formatDate v = none ↔
        ¬ ∃ n, statNumOf v = .ok n ∧ 0 < n ∧ n ≤ 8640000000000000) ∧
      (∀ n, statNumOf v = .ok n → 0 < n → n ≤ 8640000000000000 →
        formatDate v = some (isoString n)) := by
    intro v
    cases hnum : statNumOf v with
    | error e =>
      have hfd : formatDate v = none := by
        unfold formatDate
        rw [hnum]
      refine ⟨⟨fun _ => ?_, fun _ => hfd⟩, fun n hn => ?_⟩
      · rintro ⟨n, hn, hpos, hle⟩
        exact absurd hn (by simp)
      · exact absurd hn (by simp)
    | ok num =>
      have hfd : formatDate v =
          (if num ≤ 0 then none
           else if 8640000000000000 < num then none
           else some (isoString num)) := by
        unfold formatDate
        rw [hnum]
      rw [hfd]
      constructor
      · constructor
        · intro h
          rintro ⟨n, hn, hpos, hle⟩
          injection hn with hn'
          subst hn'
          split at h
          · omega
          · split at h
            · omega
            · exact absurd h (by simp)
        · intro h
          by_cases h1 : num ≤ 0
          · rw [if_pos h1]
          · by_cases h2 : 8640000000000000 < num
            · rw [if_neg h1, if_pos h2]
            · exact absurd ⟨num, rfl, by omega, by omega⟩ h
      · intro n hn hpos hle
        injection hn with hn'
        subst hn'
        rw [if_neg (by omega), if_neg (by omega)]
  refine ⟨intPattern_toStringSafe _, intPattern_toStringSafe _,
    intPattern_toStringSafe _, intPattern_toStringSafe _, ?_, ?_,
    (hdate st.ctime).1, (hdate st.ctime).2,
    (hdate st.mtime).1, (hdate st.mtime).2⟩
  · intro h
    show toStringSafe st.ephemeralOwner = "0"
    rw [h]
    rfl
  · intro bs hbs hlen
    show toStringSafe st.czxid = "0"
    rw [hbs]
    show (match readBigInt64BE bs with
      | .ok n => intToDec n
      | .error _ => "0") = "0"
    unfold readBigInt64BE
    rw [if_neg (by omega)]

/-- Witness for C7 at a concrete stat record: a three-byte buffer as
czxid renders "0", the numeric owner 0 renders "0", the zero creation
time renders null, and a genuine millisecond timestamp renders as some
ISO string. -/
theorem c7_metadata_formatter_witness :
    IntPattern (formatStat
      { czxid := .vbuf [1, 2, 3], mzxid := .vlong 7, ctime := .vnum 0,
        mtime := .vlong 1700000000000, version := 1, cversion := 0,
        aversion := 0, ephemeralOwner := .vnum 0, dataLength := 5,
        numChildren := 2, pzxid := .vnum 9 }).mzxid ∧
    (formatStat
      { czxid := .vbuf [1, 2, 3], mzxid := .vlong 7, ctime := .vnum 0,
        mtime := .vlong 1700000000000, version := 1, cversion := 0,
        aversion := 0, ephemeralOwner := .vnum 0, dataLength := 5,
        numChildren := 2, pzxid := .vnum 9 }).czxid = "0" ∧
    (formatStat
      { czxid := .vbuf [1, 2, 3], mzxid := .vlong 7, ctime := .vnum 0,
        mtime := .vlong 1700000000000, version := 1, cversion := 0,
        aversion := 0, ephemeralOwner := .vnum 0, dataLength := 5,
        numChildren := 2, pzxid := .vnum 9 }).ephemeralOwner = "0" ∧
    (formatStat
      { czxid := .vbuf [1, 2, 3], mzxid := .vlong 7, ctime := .vnum 0,
        mtime := .vlong 1700000000000, version := 1, cversion := 0,
        aversion := 0, ephemeralOwner := .vnum 0, dataLength := 5,
        numChildren := 2, pzxid := .vnum 9 }).ctime = none ∧
    (formatStat
      { czxid := .vbuf [1, 2, 3], mzxid := .vlong 7, ctime := .vnum 0,
        mtime := .vlong 1700000000000, version := 1, cversion := 0,
        aversion := 0, ephemeralOwner := .vnum 0, dataLength := 5,
        numChildren := 2, pzxid := .vnum 9 }).mtime =
      some (isoString 1700000000000) := by
  have h := c7_metadata_formatter
    { czxid := .vbuf [1, 2, 3], mzxid := .vlong 7, ctime := .vnum 0,
      mtime := .vlong 1700000000000, version := 1, cversion := 0,
      aversion := 0, ephemeralOwner := .vnum 0, dataLength := 5,
      numChildren := 2, pzxid := .vnum 9 }
  refine ⟨h.2.1, ?_, ?_, ?_, ?_⟩
  · exact h.2.2.2.2.2.1 [1, 2, 3] rfl (by decide)
  · exact h.2.2.2.2.1 rfl
  · exact h.2.2.2.2.2.2.1.mpr (by
      rintro ⟨n, hn, hpos, hle⟩
      cases hn
      omega)
  · exact h.2.2.2.2.2.2.2.2.2 1700000000000 rfl (by decide) (by decide)

/-! ## C8: observable registry states during `loadProtos`

The server keeps the published registry in the module-global `protoRoot`.
`loadProtos` reassigns `protoRoot = new protobuf.Root()` before loading
and then `await protoRoot.load(filePaths)` merges the files into the
already-published root, so every `await` boundary of the single-threaded
event loop is a point where request handlers can observe the global.  The
trace below lists the value of `protoRoot`'s registry at those
boundaries under the sequential file-processing schedule: the previous
registry (while `readdir` is awaited), the empty just-constructed root,
and the state after each successfully merged file; a failing file rejects
the load — the `catch` swallows the error and the registry stays at
whatever prefix was merged. -/

/-- A schema file: its name, the types it defines, and whether it
compiles. -/
structure ProtoFile where
  name : String
  types : List String
  ok : Bool
  deriving DecidableEq

/-- Registry states published after the root reset, one per successfully
merged file, stopping at the first failure. -/
def loadStates (cur : List String) : List ProtoFile → List (List String)
  | [] => []
  | f :: rest =>
    if f.ok then (cur ++ f.types) :: loadStates (cur ++ f.types) rest
    else []

/-- All registry states observable at await boundaries during one
`loadProtos` run (with no `.proto` files the function returns before
touching `protoRoot`, so only the previous registry is ever seen). -/
def loadTrace (prev : List String) (files : List ProtoFile) :
    List (List String) :=
  if files = [] then [prev] else prev :: [] :: loadStates [] files

/-- Number of leading files that compile (the merge stops at the first
failure). -/
def okCount : List ProtoFile → Nat
  | [] => 0
  | f :: rest => if f.ok then okCount rest + 1 else 0

/-- The registry built from the first `k` files. -/
def builtTypes (files : List ProtoFile) (k : Nat) : List String :=
  (files.take k).flatMap fun f => f.types

theorem okCount_cons (f : ProtoFile) (rest : List ProtoFile) :
    okCount (f :: rest) = if f.ok then okCount rest + 1 else 0 := rfl

theorem loadStates_eq (files : List ProtoFile) :
    ∀ cur, loadStates cur files =
      (List.range (okCount files)).map
        (fun k => cur ++ builtTypes files (k + 1)) := by
  induction files with
  | nil => intro cur; rfl
  | cons f rest ih =>
    intro cur
    show (if f.ok then (cur ++ f.types) :: loadStates (cur ++ f.types) rest
      else []) =
      (List.range (okCount (f :: rest))).map
        (fun k => cur ++ builtTypes (f :: rest) (k + 1))
    by_cases hok : f.ok
    · rw [if_pos hok, ih (cur ++ f.types), okCount_cons, if_pos hok,
        List.range_succ_eq_map, List.map_cons, List.map_map]
      refine List.cons_eq_cons.mpr ⟨?_, ?_⟩
      · show cur ++ f.types = cur ++ builtTypes (f :: rest) 1
        simp [builtTypes]
      · refine List.map_congr_left fun k hk => ?_
        show cur ++ f.types ++ builtTypes rest (k + 1) =
          cur ++ builtTypes (f :: rest) (k + 1 + 1)
        simp [builtTypes, List.append_assoc]
    · rw [if_neg hok, okCount_cons, if_neg hok]
      rfl

/-- Counterexample to C8 as stated: loading two compiling files over a
previous registry `["Old"]` passes through the observable state `["A"]`,
which is neither empty, nor the previous registry, nor the new complete
registry `["A", "B"]`. -/
theorem c8_registry_atomicity_counterexample :
    ["A"] ∈ loadTrace ["Old"]
        [⟨"a.proto", ["A"], true⟩, ⟨"b.proto", ["B"], true⟩] ∧
    (["A"] : List String) ≠ [] ∧
    (["A"] : List String) ≠ ["Old"] ∧
    ["A"] ≠ builtTypes
        [⟨"a.proto", ["A"], true⟩, ⟨"b.proto", ["B"], true⟩]
        (okCount [⟨"a.proto", ["A"], true⟩, ⟨"b.proto", ["B"], true⟩]) := by
  refine ⟨?_, by decide, by decide, by decide⟩
  show ["A"] ∈ loadTrace ["Old"] _
  rw [loadTrace]
  simp only [if_neg (by decide : ¬([⟨"a.proto", ["A"], true⟩,
    ⟨"b.proto", ["B"], true⟩] : List ProtoFile) = [])]
  right
  right
  rw [show loadStates [] [⟨"a.proto", ["A"], true⟩, ⟨"b.proto", ["B"], true⟩] =
    [["A"], ["A", "B"]] from rfl]
  exact List.mem_cons_self _ _

/-- C8 amended: the swap is not atomic — during a (re)load the published
registry passes through the empty root and every prefix build of the
compiled files, so an observable state is either the previous registry or
the concatenation of the types of the first `k` successfully compiled
files (`k` up to the first failure); the loader always terminates with
the prefix built before the first failure (the whole file list on
success), and when no schema files exist the previous registry stays
published. -/
theorem c8_registry_states_amended (prev : List String)
    (files : List ProtoFile) :
    (files = [] → loadTrace prev files = [prev]) ∧
    (files ≠ [] → loadTrace prev files =
      prev :: (List.range (okCount files + 1)).map (builtTypes files)) ∧
    (∀ s ∈ loadTrace prev files,
      s = prev ∨ ∃ k ≤ okCount files, s = builtTypes files k) ∧
    (loadTrace prev files).getLast? =
      some (if files = [] then prev else builtTypes files (okCount files)) := by
  have htrace : files ≠ [] → loadTrace prev files =
      prev :: (List.range (okCount files + 1)).map (builtTypes files) := by
    intro hne
    rw [loadTrace, if_neg hne, loadStates_eq files [],
      List.range_succ_eq_map, List.map_cons, List.map_map]
    refine List.cons_eq_cons.mpr ⟨rfl, ?_⟩
    refine List.cons_eq_cons.mpr ⟨rfl, ?_⟩
    refine List.map_congr_left fun k hk => ?_
    show [] ++ builtTypes files (k + 1) = builtTypes files (k + 1)
    exact List.nil_append _
  refine ⟨fun he => by rw [loadTrace, if_pos he], htrace, ?_, ?_⟩
  · intro s hs
    by_cases hne : files = []
    · rw [loadTrace, if_pos hne] at hs
      simp only [List.mem_singleton] at hs
      exact Or.inl hs
    · rw [htrace hne] at hs
      rcases List.mem_cons.mp hs with h | h
      · exact Or.inl h
      · obtain ⟨k, hk, hks⟩ := List.mem_map.mp h
        refine Or.inr ⟨k, ?_, hks.symm⟩
        have := List.mem_range.mp hk
        omega
  · by_cases hne : files = []
    · rw [loadTrace, if_pos hne, if_pos hne]
      rfl
    · rw [htrace hne, if_neg hne, List.range_succ, List.map_append,
        List.map_cons, List.map_nil, ← List.cons_append,
        List.getLast?_concat]

/-! ## C9: type extraction (`extractTypes` walking the namespace tree) -/

/-- A node of the compiled namespace tree: a message type (which may nest
further types), a plain namespace, or an enum (protobufjs enums carry no
`nested` member, so the walker never descends into them — the spec's
"traversed into" is vacuous for them). -/
inductive PNode where
  | msg (nested : List (String × PNode))
  | ns (nested : List (String × PNode))
  | enum

/-- Fully qualified name construction from the source:
`prefix ? prefix + "." + name : name`. -/
def fqName (pre name : String) : String :=
  if pre.data = [] then name else ⟨pre.data ++ '.' :: name.data⟩

mutual
/-- Contribution of one `nested` entry to `extractTypes`: a `Type` node is
collected and descended into, a namespace is only descended into, an enum
contributes nothing. -/
def extractEntry (pre name : String) : PNode → List String
  | .msg l => fqName pre name :: extractList (fqName pre name) l
  | .ns l => extractList (fqName pre name) l
  | .enum => []
/-- Embedding of `extractTypes` (server `loadProtos`): depth-first walk of
`nested`, collecting fully qualified names of message-type nodes. -/
def extractList (pre : String) : List (String × PNode) → List String
  | [] => []
  | (name, v) :: rest => extractEntry pre name v ++ extractList pre rest
end

mutual
/-- Key paths (segment lists) of the message-type nodes below one
entry, in the same depth-first order as `extractEntry`. -/
def pathsEntry (name : String) : PNode → List (List String)
  | .msg l => [name] :: (pathsList l).map (fun p => name :: p)
  | .ns l => (pathsList l).map (fun p => name :: p)
  | .enum => []
/-- Key paths of the message-type nodes of a forest, in depth-first
order. -/
def pathsList : List (String × PNode) → List (List String)
  | [] => []
  | (name, v) :: rest => pathsEntry name v ++ pathsList rest
end

/-- First binding of a key in a `nested` map (JS object keys are unique,
so first is the only one on well-formed trees). -/
def assocFind (k : String) : List (String × PNode) → Option PNode
  | [] => none
  | (n, v) :: rest => if n = k then some v else assocFind k rest

/-- Model of registry lookup by fully qualified dotted name (protobufjs
`Root#lookup` resolving an absolute dotted path): navigate namespace and
message nodes segment by segment. -/
def lookupNode : List (String × PNode) → List String → Option PNode
  | _, [] => none
  | l, k :: rest =>
    match assocFind k l, rest with
    | some v, [] => some v
    | some (.msg nl), _ :: _ => lookupNode nl rest
    | some (.ns nl), _ :: _ => lookupNode nl rest
    | _, _ => none

/-- Lookup of a dotted fully qualified name in the registry. -/
def lookupType (root : List (String × PNode)) (name : String) : Option PNode :=
  lookupNode root (jsSplitOn '.' name)

/-- A well-formed JS object key: non-empty and free of dots. -/
def wfKeyB (s : String) : Bool :=
  s.data ≠ [] && s.data.all (fun c => c ≠ '.')

mutual
/-- Well-formedness of a node's nested map: keys unique (JS object keys),
well formed, and recursively well-formed children. -/
def wfNodeB : PNode → Bool
  | .msg l => decide ((l.map Prod.fst).Nodup) && wfListB l
  | .ns l => decide ((l.map Prod.fst).Nodup) && wfListB l
  | .enum => true
/-- Entry-wise well-formedness of a nested map. -/
def wfListB : List (String × PNode) → Bool
  | [] => true
  | (k, v) :: rest => wfKeyB k && wfNodeB v && wfListB rest
end

/-- Well-formedness of the registry root's nested map. -/
def wfForestB (l : List (String × PNode)) : Bool :=
  decide ((l.map Prod.fst).Nodup) && wfListB l

/-- Join segments with dots (the character-level shape of nested `fqName`
applications). -/
def charJoin : List (List Char) → List Char
  | [] => []
  | [a] => a
  | a :: b :: t => a ++ '.' :: charJoin (b :: t)

theorem splitCharOn_no_sep (c : Char) (a : List Char)
    (h : ∀ x ∈ a, x ≠ c) : splitCharOn c a = [a] := by
  induction a with
  | nil => rfl
  | cons x xs ih =>
    rw [splitCharOn, if_neg (h x (List.mem_cons_self x xs)),
      ih fun y hy => h y (List.mem_cons_of_mem x hy)]

theorem splitCharOn_append_sep (c : Char) (a r : List Char)
    (h : ∀ x ∈ a, x ≠ c) :
    splitCharOn c (a ++ c :: r) = a :: splitCharOn c r := by
  induction a with
  | nil => rw [List.nil_append, splitCharOn, if_pos rfl]
  | cons x xs ih =>
    rw [List.cons_append, splitCharOn,
      if_neg (h x (List.mem_cons_self x xs)),
      ih fun y hy => h y (List.mem_cons_of_mem x hy)]

theorem charJoin_cons_left (k a : List Char) (t : List (List Char)) :
    charJoin ((k ++ '.' :: a) :: t) = k ++ '.' :: charJoin (a :: t) := by
  cases t with
  | nil => rfl
  | cons b t' =>
    rw [charJoin, charJoin, List.append_assoc]
    rfl

theorem foldl_fqName_data (p : List String) :
    ∀ k : List Char, k ≠ [] →
      (p.foldl fqName ⟨k⟩).data = charJoin (k :: p.map String.data) := by
  induction p with
  | nil => intro k hk; rfl
  | cons a p' ih =>
    intro k hk
    rw [List.foldl_cons,
      show fqName ⟨k⟩ a = ⟨k ++ '.' :: a.data⟩ from by
        unfold fqName
        rw [if_neg (by simpa using hk)],
      ih (k ++ '.' :: a.data) (by simp),
      List.map_cons, charJoin_cons_left]
    rfl

theorem splitCharOn_charJoin (ps : List (List Char)) (hne : ps ≠ [])
    (h : ∀ s ∈ ps, s ≠ [] ∧ ∀ x ∈ s, x ≠ '.') :
    splitCharOn '.' (charJoin ps) = ps := by
  induction ps with
  | nil => exact absurd rfl hne
  | cons a t ih =>
    cases t with
    | nil =>
      rw [charJoin, splitCharOn_no_sep '.' a (h a (by simp)).2]
    | cons b t' =>
      rw [charJoin, splitCharOn_append_sep '.' a _
        (h a (by simp)).2,
        ih (by simp) fun s hs => h s (List.mem_cons_of_mem a hs)]

theorem map_mk_data (p : List String) :
    p.map (fun s => (⟨s.data⟩ : String)) = p := by
  induction p with
  | nil => rfl
  | cons a t ih => rw [List.map_cons, ih]

theorem jsSplitOn_foldl_fqName (p : List String) (hp : p ≠ [])
    (hwf : ∀ s ∈ p, wfKeyB s = true) :
    jsSplitOn '.' (p.foldl fqName "") = p := by
  have hkey : ∀ s ∈ p, s.data ≠ [] ∧ ∀ x ∈ s.data, x ≠ '.' := by
    intro s hs
    have := hwf s hs
    unfold wfKeyB at this
    simp only [Bool.and_eq_true, decide_eq_true_eq, ne_eq,
      List.all_eq_true] at this
    exact ⟨this.1, fun x hx => this.2 x hx⟩
  cases p with
  | nil => exact absurd rfl hp
  | cons a p' =>
    have hfold : (a :: p').foldl fqName "" = p'.foldl fqName ⟨a.data⟩ := by
      rw [List.foldl_cons]
      rfl
    have hdata : ((a :: p').foldl fqName "").data =
        charJoin ((a :: p').map String.data) := by
      rw [hfold, foldl_fqName_data p' a.data
        (hkey a (List.mem_cons_self a p')).1]
      rfl
    unfold jsSplitOn
    rw [hdata, splitCharOn_charJoin _ (by simp) (by
      intro s hs
      obtain ⟨x, hx, hxs⟩ := List.mem_map.mp hs
      subst hxs
      exact hkey x hx)]
    rw [List.map_map]
    exact map_mk_data _

/-- Children map of a node (`value.nested` — absent on enums). -/
def nodeChildren : PNode → List (String × PNode)
  | .msg l => l
  | .ns l => l
  | .enum => []

theorem pathsEntry_cases (name : String) (v : PNode) (p : List String)
    (hp : p ∈ pathsEntry name v) :
    (p = [name] ∧ ∃ l', v = .msg l') ∨
    (∃ t, t ∈ pathsList (nodeChildren v) ∧ p = name :: t) := by
  cases v with
  | msg l' =>
    rw [pathsEntry] at hp
    rcases List.mem_cons.mp hp with h | h
    · exact Or.inl ⟨h, l', rfl⟩
    · obtain ⟨t, ht, hts⟩ := List.mem_map.mp h
      exact Or.inr ⟨t, ht, hts.symm⟩
  | ns l' =>
    rw [pathsEntry] at hp
    obtain ⟨t, ht, hts⟩ := List.mem_map.mp hp
    exact Or.inr ⟨t, ht, hts.symm⟩
  | enum => exact absurd hp (by rw [pathsEntry]; simp)

theorem pathsList_head (l : List (String × PNode)) (p : List String)
    (hp : p ∈ pathsList l) : ∃ k t, p = k :: t ∧ k ∈ l.map Prod.fst := by
  induction l with
  | nil => exact absurd hp (by rw [pathsList]; simp)
  | cons e rest ih =>
    obtain ⟨name, v⟩ := e
    rw [pathsList] at hp
    rcases List.mem_append.mp hp with h | h
    · rcases pathsEntry_cases name v p h with ⟨hpv, _⟩ | ⟨t, _, hpv⟩
      · exact ⟨name, [], hpv, by simp⟩
      · exact ⟨name, t, hpv, by simp⟩
    · obtain ⟨k, t, hpv, hk⟩ := ih h
      exact ⟨k, t, hpv, by simp [hk]⟩

theorem pathsList_ne_nil (l : List (String × PNode)) (p : List String)
    (hp : p ∈ pathsList l) : p ≠ [] := by
  obtain ⟨k, t, hpv, _⟩ := pathsList_head l p hp
  rw [hpv]
  simp

theorem wfListB_cons {name : String} {v : PNode} {rest : List (String × PNode)}
    (h : wfListB ((name, v) :: rest) = true) :
    wfKeyB name = true ∧ wfNodeB v = true ∧ wfListB rest = true := by
  rw [wfListB] at h
  simp only [Bool.and_eq_true] at h
  exact ⟨h.1.1, h.1.2, h.2⟩

theorem wfNodeB_children {v : PNode} (h : wfNodeB v = true) :
    ((nodeChildren v).map Prod.fst).Nodup ∧ wfListB (nodeChildren v) = true := by
  cases v with
  | msg l =>
    rw [wfNodeB] at h
    simp only [Bool.and_eq_true, decide_eq_true_eq] at h
    exact h
  | ns l =>
    rw [wfNodeB] at h
    simp only [Bool.and_eq_true, decide_eq_true_eq] at h
    exact h
  | enum => exact ⟨List.nodup_nil, rfl⟩

theorem extractList_eq_paths :
    ∀ (n : Nat) (l : List (String × PNode)), sizeOf l ≤ n →
      ∀ pre, extractList pre l =
        (pathsList l).map (fun p => p.foldl fqName pre) := by
  intro n
  induction n with
  | zero =>
    intro l hl
    exact absurd hl (by cases l <;> simp)
  | succ n ih =>
    intro l hl pre
    match l with
    | [] => rfl
    | (name, v) :: rest =>
      have hrest : sizeOf rest ≤ n := by
        simp only [List.cons.sizeOf_spec, Prod.mk.sizeOf_spec] at hl
        omega
      cases v with
      | msg l' =>
        have hl' : sizeOf l' ≤ n := by
          simp only [List.cons.sizeOf_spec, Prod.mk.sizeOf_spec,
            PNode.msg.sizeOf_spec] at hl
          omega
        show (fqName pre name :: extractList (fqName pre name) l') ++
            extractList pre rest =
          (([name] :: (pathsList l').map (fun p => name :: p)) ++
            pathsList rest).map (fun p => p.foldl fqName pre)
        rw [List.map_append, List.map_cons, List.map_map,
          ih l' hl' (fqName pre name), ih rest hrest pre]
        refine congrArg₂ (· ++ ·) ?_ rfl
        refine List.cons_eq_cons.mpr ⟨rfl, ?_⟩
        exact List.map_congr_left fun p _ => rfl
      | ns l' =>
        have hl' : sizeOf l' ≤ n := by
          simp only [List.cons.sizeOf_spec, Prod.mk.sizeOf_spec,
            PNode.ns.sizeOf_spec] at hl
          omega
        show extractList (fqName pre name) l' ++ extractList pre rest =
          ((pathsList l').map (fun p => name :: p) ++
            pathsList rest).map (fun p => p.foldl fqName pre)
        rw [List.map_append, List.map_map, ih l' hl' (fqName pre name),
          ih rest hrest pre]
        refine congrArg₂ (· ++ ·) ?_ rfl
        exact List.map_congr_left fun p _ => rfl
      | enum =>
        show ([] : List String) ++ extractList pre rest =
          (([] : List (List String)) ++ pathsList rest).map
            (fun p => List.foldl fqName pre p)
        rw [List.nil_append, List.nil_append, ih rest hrest pre]

theorem assocFind_cons (k name : String) (v : PNode)
    (rest : List (String × PNode)) :
    assocFind k ((name, v) :: rest) =
      if name = k then some v else assocFind k rest := rfl

theorem pathsEntry_head (name : String) (v : PNode) (p : List String)
    (hp : p ∈ pathsEntry name v) : ∃ t, p = name :: t := by
  rcases pathsEntry_cases name v p hp with ⟨hpv, _⟩ | ⟨t, _, hpv⟩
  · exact ⟨[], hpv⟩
  · exact ⟨t, hpv⟩

theorem pathsList_nodup :
    ∀ (n : Nat) (l : List (String × PNode)), sizeOf l ≤ n →
      (l.map Prod.fst).Nodup → wfListB l = true → (pathsList l).Nodup := by
  intro n
  induction n with
  | zero =>
    intro l hl
    exact absurd hl (by cases l <;> simp)
  | succ n ih =>
    intro l hl hnd hwf
    match l with
    | [] => exact List.nodup_nil
    | (name, v) :: rest =>
      obtain ⟨hkey, hnode, hrestwf⟩ := wfListB_cons hwf
      have hnd2 := hnd
      rw [List.map_cons] at hnd2
      have hnd' := List.nodup_cons.mp hnd2
      have hrest : sizeOf rest ≤ n := by
        simp only [List.cons.sizeOf_spec, Prod.mk.sizeOf_spec] at hl
        omega
      show (pathsEntry name v ++ pathsList rest).Nodup
      rw [List.nodup_append]
      refine ⟨?_, ih rest hrest hnd'.2 hrestwf, ?_⟩
      · cases v with
        | enum => simp [pathsEntry]
        | msg l' =>
          obtain ⟨hndc, hwfc⟩ := wfNodeB_children hnode
          have hl' : sizeOf l' ≤ n := by
            simp only [List.cons.sizeOf_spec, Prod.mk.sizeOf_spec,
              PNode.msg.sizeOf_spec] at hl
            omega
          rw [pathsEntry, List.nodup_cons]
          constructor
          · intro hmem
            obtain ⟨t, ht, hts⟩ := List.mem_map.mp hmem
            have htnil : t = [] := ((List.cons.injEq _ _ _ _).mp hts).2
            exact pathsList_ne_nil l' t ht htnil
          · refine List.Nodup.map ?_ (ih l' hl' hndc hwfc)
            intro a b hab
            exact ((List.cons.injEq _ _ _ _).mp hab).2
        | ns l' =>
          obtain ⟨hndc, hwfc⟩ := wfNodeB_children hnode
          have hl' : sizeOf l' ≤ n := by
            simp only [List.cons.sizeOf_spec, Prod.mk.sizeOf_spec,
              PNode.ns.sizeOf_spec] at hl
            omega
          rw [pathsEntry]
          refine List.Nodup.map ?_ (ih l' hl' hndc hwfc)
          intro a b hab
          exact ((List.cons.injEq _ _ _ _).mp hab).2
      · intro p hp1 hp2
        obtain ⟨t, hpt⟩ := pathsEntry_head name v p hp1
        obtain ⟨k, t', hpt', hk⟩ := pathsList_head rest p hp2
        have hkn : name = k := by
          rw [hpt] at hpt'
          exact ((List.cons.injEq _ _ _ _).mp hpt').1
        exact hnd'.1 (hkn ▸ hk)

theorem lookupNode_cons (l : List (String × PNode)) (k : String)
    (rest : List String) :
    lookupNode l (k :: rest) =
      match assocFind k l, rest with
      | some v, [] => some v
      | some (.msg nl), _ :: _ => lookupNode nl rest
      | some (.ns nl), _ :: _ => lookupNode nl rest
      | _, _ => none := rfl

theorem lookupNode_cons_ne (name : String) (v : PNode)
    (rest : List (String × PNode)) (k : String) (t : List String)
    (hne : name ≠ k) :
    lookupNode ((name, v) :: rest) (k :: t) = lookupNode rest (k :: t) := by
  rw [lookupNode_cons, lookupNode_cons, assocFind_cons, if_neg hne]

theorem pathsList_lookup :
    ∀ (n : Nat) (l : List (String × PNode)), sizeOf l ≤ n →
      (l.map Prod.fst).Nodup → wfListB l = true →
      ∀ p ∈ pathsList l, ∃ nl, lookupNode l p = some (.msg nl) := by
  intro n
  induction n with
  | zero =>
    intro l hl
    exact absurd hl (by cases l <;> simp)
  | succ n ih =>
    intro l hl hnd hwf p hp
    match l with
    | [] => exact absurd hp (by rw [pathsList] at hp ⊢; simp at hp)
    | (name, v) :: rest =>
      obtain ⟨hkey, hnode, hrestwf⟩ := wfListB_cons hwf
      have hnd2 := hnd
      rw [List.map_cons] at hnd2
      have hnd' := List.nodup_cons.mp hnd2
      have hrest : sizeOf rest ≤ n := by
        simp only [List.cons.sizeOf_spec, Prod.mk.sizeOf_spec] at hl
        omega
      rw [pathsList] at hp
      rcases List.mem_append.mp hp with h | h
      · rcases pathsEntry_cases name v p h with ⟨hpv, l', hv⟩ | ⟨t, ht, hpv⟩
        · subst hv
          refine ⟨l', ?_⟩
          rw [hpv, lookupNode_cons, assocFind_cons, if_pos rfl]
        · cases v with
          | enum => exact absurd ht (by rw [nodeChildren, pathsList]; simp)
          | msg l' =>
            obtain ⟨hndc, hwfc⟩ := wfNodeB_children hnode
            have hl' : sizeOf l' ≤ n := by
              simp only [List.cons.sizeOf_spec, Prod.mk.sizeOf_spec,
                PNode.msg.sizeOf_spec] at hl
              omega
            obtain ⟨nl, hlook⟩ := ih l' hl' hndc hwfc t ht
            obtain ⟨a, t', hts, _⟩ := pathsList_head l' t ht
            refine ⟨nl, ?_⟩
            rw [hpv, hts, lookupNode_cons, assocFind_cons, if_pos rfl]
            rw [hts] at hlook
            exact hlook
          | ns l' =>
            obtain ⟨hndc, hwfc⟩ := wfNodeB_children hnode
            have hl' : sizeOf l' ≤ n := by
              simp only [List.cons.sizeOf_spec, Prod.mk.sizeOf_spec,
                PNode.ns.sizeOf_spec] at hl
              omega
            obtain ⟨nl, hlook⟩ := ih l' hl' hndc hwfc t ht
            obtain ⟨a, t', hts, _⟩ := pathsList_head l' t ht
            refine ⟨nl, ?_⟩
            rw [hpv, hts, lookupNode_cons, assocFind_cons, if_pos rfl]
            rw [hts] at hlook
            exact hlook
      · obtain ⟨k, t', hpv, hk⟩ := pathsList_head rest p h
        have hne : name ≠ k := fun he => hnd'.1 (he ▸ hk)
        obtain ⟨nl, hlook⟩ := ih rest hrest hnd'.2 hrestwf p h
        refine ⟨nl, ?_⟩
        rw [hpv, lookupNode_cons_ne name v rest k t' hne, ← hpv]
        exact hlook

theorem pathsList_keys_wf :
    ∀ (n : Nat) (l : List (String × PNode)), sizeOf l ≤ n →
      wfListB l = true →
      ∀ p ∈ pathsList l, ∀ k ∈ p, wfKeyB k = true := by
  intro n
  induction n with
  | zero =>
    intro l hl
    exact absurd hl (by cases l <;> simp)
  | succ n ih =>
    intro l hl hwf p hp k hk
    match l with
    | [] => exact absurd hp (by rw [pathsList] at hp ⊢; simp at hp)
    | (name, v) :: rest =>
      obtain ⟨hkey, hnode, hrestwf⟩ := wfListB_cons hwf
      have hrest : sizeOf rest ≤ n := by
        simp only [List.cons.sizeOf_spec, Prod.mk.sizeOf_spec] at hl
        omega
      rw [pathsList] at hp
      rcases List.mem_append.mp hp with h | h
      · rcases pathsEntry_cases name v p h with ⟨hpv, _⟩ | ⟨t, ht, hpv⟩
        · rw [hpv] at hk
          simp only [List.mem_singleton] at hk
          exact hk ▸ hkey
        · rw [hpv] at hk
          rcases List.mem_cons.mp hk with hh | hh
          · exact hh ▸ hkey
          · obtain ⟨hndc, hwfc⟩ := wfNodeB_children hnode
            have hlc : sizeOf (nodeChildren v) ≤ n := by
              cases v <;>
                simp only [List.cons.sizeOf_spec, Prod.mk.sizeOf_spec,
                  PNode.msg.sizeOf_spec, PNode.ns.sizeOf_spec, nodeChildren,
                  PNode.enum.sizeOf_spec, List.nil.sizeOf_spec] at hl ⊢ <;>
                omega
            exact ih (nodeChildren v) hlc hwfc t ht k hh
      · exact ih rest hrest hrestwf p h k hk

/-- C9: on a well-formed registry tree (unique, non-empty, dot-free JS
object keys at every level), `extractTypes` produces exactly the fully
qualified names of the message-type nodes in depth-first traversal order
(one per reachable message-type node), the list contains no duplicates,
and every name in it resolves via registry lookup to a message-type
node. -/
theorem c9_type_extraction (root : List (String × PNode))
    (hwf : wfForestB root = true) :
    extractList "" root =
      (pathsList root).map (fun p => List.foldl fqName "" p) ∧
    (extractList "" root).Nodup ∧
    ∀ fq ∈ extractList "" root, ∃ nl, lookupType root fq = some (.msg nl) := by
  have hsplit : (root.map Prod.fst).Nodup ∧ wfListB root = true := by
    unfold wfForestB at hwf
    simp only [Bool.and_eq_true, decide_eq_true_eq] at hwf
    exact hwf
  have heq := extractList_eq_paths (sizeOf root) root le_rfl ""
  have hkeys : ∀ p ∈ pathsList root, ∀ k ∈ p, wfKeyB k = true :=
    pathsList_keys_wf (sizeOf root) root le_rfl hsplit.2
  refine ⟨heq, ?_, ?_⟩
  · rw [heq]
    refine List.Nodup.map_on ?_
      (pathsList_nodup (sizeOf root) root le_rfl hsplit.1 hsplit.2)
    intro p1 h1 p2 h2 hfold
    have hs1 := jsSplitOn_foldl_fqName p1 (pathsList_ne_nil root p1 h1)
      (hkeys p1 h1)
    have hs2 := jsSplitOn_foldl_fqName p2 (pathsList_ne_nil root p2 h2)
      (hkeys p2 h2)
    rw [← hs1, ← hs2, hfold]
  · intro fq hfq
    rw [heq] at hfq
    obtain ⟨p, hp, hpf⟩ := List.mem_map.mp hfq
    obtain ⟨nl, hlook⟩ :=
      pathsList_lookup (sizeOf root) root le_rfl hsplit.1 hsplit.2 p hp
    refine ⟨nl, ?_⟩
    unfold lookupType
    rw [← hpf, jsSplitOn_foldl_fqName p (pathsList_ne_nil root p hp)
      (hkeys p hp)]
    exact hlook

/-- Witness for C9 on a concrete registry: a namespace holding a message
and an enum, plus a message nesting another message. -/
theorem c9_type_extraction_witness :
    extractList ""
      [("pkg", .ns [("Backend", .msg []), ("Mode", .enum)]),
       ("Top", .msg [("Inner", .msg [])])] =
      ["pkg.Backend", "Top", "Top.Inner"] ∧
    (extractList ""
      [("pkg", .ns [("Backend", .msg []), ("Mode", .enum)]),
       ("Top", .msg [("Inner", .msg [])])]).Nodup ∧
    (∃ nl, lookupType
      [("pkg", .ns [("Backend", .msg []), ("Mode", .enum)]),
       ("Top", .msg [("Inner", .msg [])])] "pkg.Backend" =
        some (.msg nl)) := by
  have h := c9_type_extraction
    [("pkg", .ns [("Backend", .msg []), ("Mode", .enum)]),
     ("Top", .msg [("Inner", .msg [])])] (by decide)
  exact ⟨by decide, h.2.1, h.2.2 "pkg.Backend" (by decide)⟩

/-- Witness for the amended C8 at concrete inputs: a load of one good and
one broken file over registry `["Old"]` observably passes through `[]`
and `["A"]`, and a load with no files leaves the previous registry. -/
theorem c8_registry_states_amended_witness :
    loadTrace ["Old"]
      [⟨"a.proto", ["A"], true⟩, ⟨"b.proto", ["B"], false⟩] =
      [["Old"], [], ["A"]] ∧
    loadTrace ["Old"] ([] : List ProtoFile) = [["Old"]] := by
  constructor
  · have h := (c8_registry_states_amended ["Old"]
      [⟨"a.proto", ["A"], true⟩, ⟨"b.proto", ["B"], false⟩]).2.1 (by decide)
    rw [h]
    decide
  · exact (c8_registry_states_amended ["Old"] []).1 rfl

/-! ## Wire codec model (protobufjs runtime behaviour used by
`/api/decode` and `/api/encode`)

Buffers are byte lists.  The demo registry holds two representative
message types compiled from schema files: `DemoKV` with an `int64` field
`a` (field 1) and a `string` field `b` (field 2), and `DemoRec` with an
`int64` field `y` (field 1), an enum field `e` (field 2) and a `bytes`
field `d` (field 3).  The embedding follows the protobufjs reader/writer:
base-128 varints, `Long`-based 64-bit reads (two's complement, wrapped
modulo 2^64), last-value-wins for repeated occurrences of a singular
field, unknown fields skipped by wire type (groups included), and UTF-8
handled for the ASCII payloads the claims exercise (one byte per
character). -/

/-- LEB128 varint encoding (protobufjs writer); the fuel (10 bytes) covers
every 64-bit value, matching the wire format's maximum varint width. -/
def varintEncAux : Nat → Nat → List Nat
  | 0, n => [n % 128]
  | fuel + 1, n =>
    if n < 128 then [n] else (n % 128 + 128) :: varintEncAux fuel (n / 128)

/-- Varint encoding of a (64-bit) value. -/
def varintEnc (n : Nat) : List Nat :=
  varintEncAux 10 n

/-- LEB128 varint decoding (protobufjs reader; the reader raises on a
truncated varint — `none` here). -/
def varintDec : List Nat → Option (Nat × List Nat)
  | [] => none
  | b :: rest =>
    if b < 128 then some (b, rest)
    else
      match varintDec rest with
      | some (v, r) => some ((b - 128) + 128 * v, r)
      | none => none

/-- Two's-complement reading of the low 32 bits (protobufjs
`Reader#int32` for enum fields). -/
def toSigned32 (n : Nat) : Int :=
  if n % 2 ^ 32 < 2 ^ 31 then ((n % 2 ^ 32 : Nat) : Int)
  else ((n % 2 ^ 32 : Nat) : Int) - 2 ^ 32

mutual
/-- Model of `Reader#skipType`: skip one value of the given wire type
(the fuel bounds group nesting by the buffer length; wire types 4, 6 and
7 raise "invalid wire type" — `none`). -/
def skipData : Nat → Nat → List Nat → Option (List Nat)
  | _, 0, bs => (varintDec bs).map (fun vr => vr.2)
  | _, 1, bs => if 8 ≤ bs.length then some (bs.drop 8) else none
  | _, 2, bs =>
    match varintDec bs with
    | some (len, r) => if len ≤ r.length then some (r.drop len) else none
    | none => none
  | _, 5, bs => if 4 ≤ bs.length then some (bs.drop 4) else none
  | fuel + 1, 3, bs => skipGroup fuel bs
  | _, _, _ => none
/-- Skip the remainder of a group: read tag-value pairs until the
matching end-group tag. -/
def skipGroup : Nat → List Nat → Option (List Nat)
  | 0, _ => none
  | fuel + 1, bs =>
    match varintDec bs with
    | some (key, r) =>
      if key % 8 = 4 then some r
      else
        match skipData fuel (key % 8) r with
        | some r2 => skipGroup fuel r2
        | none => none
    | none => none
end

/-- UTF-8 read of an ASCII payload (one byte per character). -/
def asciiStr (bytes : List Nat) : String :=
  ⟨bytes.map Char.ofNat⟩

/-- UTF-8 write of an ASCII string (one byte per character). -/
def strBytes (s : String) : List Nat :=
  s.data.map Char.toNat

/-- A decoded `DemoKV` message instance: protobufjs sets an own property
only for fields present on the wire (`none` models an absent own
property; the prototype default fills in at `toObject` time). -/
structure MsgARec where
  a : Option Int
  b : Option String
  deriving Repr

/-- The protobufjs reflection decode loop for `DemoKV`: read a tag,
dispatch on field number and wire type, last value wins, skip unknown
fields.  The fuel is the buffer length (each iteration consumes at least
one byte). -/
def decodeFieldsA : Nat → MsgARec → List Nat → Option MsgARec
  | _, acc, [] => some acc
  | 0, _, _ :: _ => none
  | fuel + 1, acc, b :: bs =>
    match varintDec (b :: bs) with
    | none => none
    | some (key, r1) =>
      let tag := key % 2 ^ 32
      if tag / 8 = 1 ∧ tag % 8 = 0 then
        match varintDec r1 with
        | some (v, r2) =>
          decodeFieldsA fuel { acc with a := some (toSigned64 v) } r2
        | none => none
      else if tag / 8 = 2 ∧ tag % 8 = 2 then
        match varintDec r1 with
        | some (len, r2) =>
          if len ≤ r2.length then
            decodeFieldsA fuel
              { acc with b := some (asciiStr (r2.take len)) } (r2.drop len)
          else none
        | none => none
      else
        match skipData fuel (tag % 8) r1 with
        | some r2 => decodeFieldsA fuel acc r2
        | none => none

/-- `DemoKV.decode(buffer)`. -/
def decodeA (bytes : List Nat) : Option MsgARec :=
  decodeFieldsA bytes.length ⟨none, none⟩ bytes

/-- The protobufjs reflection encoder for `DemoKV`: write each field that
is set (a non-null own property) in declaration order — `int64` as a
64-bit two's-complement varint, the string as length-delimited UTF-8. -/
def encodeA (m : MsgARec) : List Nat :=
  (match m.a with
   | some v => 8 :: varintEnc (Int.toNat (v % (2 ^ 64 : Int)))
   | none => []) ++
  (match m.b with
   | some s => 18 :: varintEnc s.data.length ++ strBytes s
   | none => [])

/-- `DemoKV.toObject(decoded, { longs: String, enums: String, bytes:
String, defaults: true })`: the 64-bit field renders as its decimal
string, the string field as itself, absent fields as their defaults. -/
def toObjectA (m : MsgARec) : JVal :=
  .jobj [("a", .jstr (intToDec (m.a.getD 0))), ("b", .jstr (m.b.getD ""))]

theorem varintDec_encAux (fuel : Nat) :
    ∀ (n : Nat), n < 128 ^ fuel →
      ∀ rest, varintDec (varintEncAux fuel n ++ rest) = some (n, rest) := by
  induction fuel with
  | zero =>
    intro n hn rest
    interval_cases n
    rfl
  | succ fuel ih =>
    intro n hn rest
    rw [varintEncAux]
    by_cases h : n < 128
    · rw [if_pos h]
      show varintDec (n :: rest) = some (n, rest)
      rw [varintDec, if_pos h]
    · rw [if_neg h, List.cons_append, varintDec, if_neg (by omega),
        ih (n / 128) (by
          have : 128 ^ (fuel + 1) = 128 ^ fuel * 128 := by ring
          omega) rest]
      refine congrArg some (Prod.ext ?_ rfl)
      show n % 128 + 128 - 128 + 128 * (n / 128) = n
      omega

theorem varintDec_enc (n : Nat) (hn : n < 2 ^ 64) (rest : List Nat) :
    varintDec (varintEnc n ++ rest) = some (n, rest) :=
  varintDec_encAux 10 n (by norm_num at hn ⊢; omega) rest

theorem toSigned64_wrap (a : Int) (h1 : -(2 ^ 63) ≤ a) (h2 : a < 2 ^ 63) :
    toSigned64 (Int.toNat (a % (2 ^ 64 : Int))) = a := by
  unfold toSigned64
  split <;> omega

theorem int_wrap_lt (a : Int) : Int.toNat (a % (2 ^ 64 : Int)) < 2 ^ 64 := by
  omega

theorem asciiStr_strBytes (s : String) : asciiStr (strBytes s) = s := by
  unfold asciiStr strBytes
  rw [List.map_map]
  refine congrArg String.mk ?_
  calc s.data.map (Char.ofNat ∘ Char.toNat)
      = s.data.map id := List.map_congr_left fun c _ => Char.ofNat_toNat c
    _ = s.data := List.map_id s.data

theorem decodeFieldsA_field1 (fuel : Nat) (acc : MsgARec) (u : Nat)
    (hu : u < 2 ^ 64) (rest : List Nat) :
    decodeFieldsA (fuel + 1) acc (8 :: (varintEnc u ++ rest)) =
      decodeFieldsA fuel { acc with a := some (toSigned64 u) } rest := by
  rw [decodeFieldsA]
  have h8 : varintDec (8 :: (varintEnc u ++ rest)) =
      some (8, varintEnc u ++ rest) := by
    rw [varintDec, if_pos (by omega)]
  rw [h8]
  dsimp only
  rw [if_pos (by norm_num), varintDec_enc u hu rest]

theorem decodeFieldsA_field2 (fuel : Nat) (acc : MsgARec) (s : String)
    (hlen : s.data.length < 2 ^ 64) (rest : List Nat) :
    decodeFieldsA (fuel + 1) acc
      (18 :: (varintEnc s.data.length ++ (strBytes s ++ rest))) =
      decodeFieldsA fuel { acc with b := some s } rest := by
  rw [decodeFieldsA]
  have h18 : varintDec (18 :: (varintEnc s.data.length ++ (strBytes s ++ rest))) =
      some (18, varintEnc s.data.length ++ (strBytes s ++ rest)) := by
    rw [varintDec, if_pos (by omega)]
  rw [h18]
  dsimp only
  rw [if_neg (by norm_num), if_pos (by norm_num),
    varintDec_enc s.data.length hlen (strBytes s ++ rest)]
  dsimp only
  have hsb : (strBytes s).length = s.data.length := List.length_map _ _
  rw [if_pos (by rw [List.length_append, hsb]; omega)]
  rw [show (strBytes s ++ rest).take s.data.length = strBytes s from by
      rw [← hsb]; exact List.take_left _ _,
    show (strBytes s ++ rest).drop s.data.length = rest from by
      rw [← hsb]; exact List.drop_left _ _,
    asciiStr_strBytes]

theorem decodeFieldsA_nil (fuel : Nat) (acc : MsgARec) :
    decodeFieldsA fuel acc [] = some acc := by
  cases fuel <;> rfl

theorem decodeA_encodeA (m : MsgARec)
    (ha : ∀ v, m.a = some v → -(2 ^ 63) ≤ v ∧ v < 2 ^ 63)
    (hb : ∀ s, m.b = some s → s.data.length < 2 ^ 64) :
    decodeA (encodeA m) = some m := by
  obtain ⟨oa, ob⟩ := m
  cases oa with
  | none =>
    cases ob with
    | none => rfl
    | some s =>
      have hlen := hb s rfl
      show decodeFieldsA (encodeA ⟨none, some s⟩).length ⟨none, none⟩
        ([] ++ (18 :: (varintEnc s.data.length ++ strBytes s))) = _
      rw [List.nil_append]
      have hshape : (encodeA ⟨none, some s⟩).length =
          (varintEnc s.data.length ++ (strBytes s ++ [])).length + 1 := by
        show ([] ++ (18 :: (varintEnc s.data.length ++ strBytes s))).length = _
        simp
      rw [hshape,
        show (18 :: (varintEnc s.data.length ++ strBytes s)) =
          (18 :: (varintEnc s.data.length ++ (strBytes s ++ []))) from by
          simp,
        decodeFieldsA_field2 _ _ s hlen [], decodeFieldsA_nil]
  | some v =>
    have hv := ha v rfl
    have hu := int_wrap_lt v
    cases ob with
    | none =>
      show decodeFieldsA (encodeA ⟨some v, none⟩).length ⟨none, none⟩
        ((8 :: varintEnc (Int.toNat (v % (2 ^ 64 : Int)))) ++ []) = _
      have hshape : (encodeA ⟨some v, none⟩).length =
          (varintEnc (Int.toNat (v % (2 ^ 64 : Int))) ++ []).length + 1 := by
        show ((8 :: varintEnc (Int.toNat (v % (2 ^ 64 : Int)))) ++ []).length = _
        simp
      rw [hshape, List.cons_append,
        decodeFieldsA_field1 _ _ _ hu [], decodeFieldsA_nil,
        toSigned64_wrap v hv.1 hv.2]
    | some s =>
      have hlen := hb s rfl
      show decodeFieldsA (encodeA ⟨some v, some s⟩).length ⟨none, none⟩
        ((8 :: varintEnc (Int.toNat (v % (2 ^ 64 : Int)))) ++
          (18 :: (varintEnc s.data.length ++ strBytes s))) = _
      have hshape : (encodeA ⟨some v, some s⟩).length =
          ((varintEnc (Int.toNat (v % (2 ^ 64 : Int)))) ++
            (18 :: (varintEnc s.data.length ++ (strBytes s ++ [])))).length
            + 1 := by
        show ((8 :: varintEnc (Int.toNat (v % (2 ^ 64 : Int)))) ++
          (18 :: (varintEnc s.data.length ++ strBytes s))).length = _
        simp
      rw [hshape, List.cons_append,
        show varintEnc (Int.toNat (v % (2 ^ 64 : Int))) ++
            (18 :: (varintEnc s.data.length ++ strBytes s)) =
          varintEnc (Int.toNat (v % (2 ^ 64 : Int))) ++
            (18 :: (varintEnc s.data.length ++ (strBytes s ++ []))) from by
          simp,
        decodeFieldsA_field1 _ _ _ hu _]
      have hpos : 0 < (varintEnc (Int.toNat (v % (2 ^ 64 : Int))) ++
          18 :: (varintEnc s.data.length ++ (strBytes s ++ []))).length := by
        rw [List.length_append]
        simp
      rw [(Nat.succ_pred_eq_of_pos hpos).symm,
        decodeFieldsA_field2 _ _ s hlen [], decodeFieldsA_nil,
        toSigned64_wrap v hv.1 hv.2]

/-- Floor of a rational (denominator is positive, so Euclidean division
of the numerator floors). -/
def ratFloor (q : ℚ) : Int :=
  q.num.ediv (q.den : Int)

/-- Decimal digits of the fractional part (JS prints at most 17
significant digits; every value reached here comes from `parseFloat` of a
finite decimal literal). -/
def fracDigits : Nat → ℚ → List Char
  | 0, _ => []
  | fuel + 1, f =>
    if f = 0 then []
    else
      let d := ratFloor (f * 10)
      Char.ofNat (48 + d.toNat) :: fracDigits fuel (f * 10 - (d : ℚ))

/-- Model of JS `Number.prototype.toString` on a non-integral value
(finite decimal expansion; only integral values are reached by the
theorems below). -/
def ratToDecString (q : ℚ) : String :=
  let neg := q < 0
  let aq := |q|
  let ip := ratFloor aq
  ⟨(if neg then ['-'] else []) ++ natToDigits ip.toNat ++
    '.' :: fracDigits 17 (aq - (ip : ℚ))⟩

/-- Model of JS `String(v)` as used by protobufjs `fromObject` for string
fields: integral numbers print in decimal, arrays join their elements
with commas, plain objects stringify to "[object Object]". -/
def jsToString : JVal → String
  | .jnull => "null"
  | .jundef => "undefined"
  | .jbool b => if b then "true" else "false"
  | .jnum q => if q.den = 1 then intToDec q.num else ratToDecString q
  | .jstr s => s
  | .jarr xs =>
    ⟨List.intercalate [','] ((xs.attach.map fun x => jsToString x.1).map
      String.data)⟩
  | .jobj _ => "[object Object]"
decreasing_by
  have := List.sizeOf_lt_of_mem x.2
  simp only [JVal.jarr.sizeOf_spec]
  omega

theorem jsToString_str (s : String) : jsToString (.jstr s) = s := by
  rw [jsToString]

theorem jsToString_num (q : ℚ) :
    jsToString (.jnum q) =
      if q.den = 1 then intToDec q.num else ratToDecString q := by
  rw [jsToString]

/-- Model of `util.Long.fromValue` as invoked by `fromObject` for the
`int64` field: numbers are truncated and wrapped to 64 bits, numeric
strings are parsed in decimal and wrapped (only numbers and numeric
strings reach this conversion in the theorems below). -/
def longFromValue : JVal → Int
  | .jnum q => toSigned64 (Int.toNat ((q.num.tdiv (q.den : Int)) % (2 ^ 64 : Int)))
  | .jstr s => toSigned64 (Int.toNat (intStrVal s % (2 ^ 64 : Int)))
  | _ => 0

/-- JS object property read. -/
def jsGet (k : String) (fs : List (String × JVal)) : Option JVal :=
  (fs.find? (fun kv => kv.1 = k)).map (fun kv => kv.2)

/-- The protobufjs converter `DemoKV.fromObject`: a field present and not
null/undefined is converted (`Long.fromValue` for the int64 field,
`String(...)` for the string field) and set on the message; a non-object
input raises "object expected". -/
def fromObjectA : JVal → Option MsgARec
  | .jobj fs =>
    some {
      a :=
        match jsGet "a" fs with
        | none => none
        | some .jnull => none
        | some .jundef => none
        | some v => some (longFromValue v)
      b :=
        match jsGet "b" fs with
        | none => none
        | some .jnull => none
        | some .jundef => none
        | some v => some (jsToString v) }
  | _ => none

/-- The `/api/decode` pipeline for `DemoKV`: decode then `toObject` under
the fixed output policy. -/
def apiDecodeA (bytes : List Nat) : Option JVal :=
  (decodeA bytes).map toObjectA

/-- The `/api/encode` pipeline for `DemoKV`: `convertStringNumbers`, then
`fromObject`, then serialize. -/
def apiEncodeA (v : JVal) : Option (List Nat) :=
  (fromObjectA (convertStringNumbers v)).map encodeA

theorem natToDigits_lt10 (n : Nat) (h : n < 10) :
    natToDigits n = [Char.ofNat (48 + n)] := by
  rw [natToDigits, dif_pos h]

theorem digitsVal_natToDigits (n : Nat) : digitsVal (natToDigits n) = n := by
  induction n using Nat.strong_induction_on with
  | _ n ih =>
    rw [natToDigits]
    split
    · next h =>
      show digitsVal [Char.ofNat (48 + n)] = n
      interval_cases n <;> decide
    · next h =>
      unfold digitsVal
      rw [List.foldl_append]
      have hofNat : (Char.ofNat (48 + n % 10)).toNat = 48 + n % 10 := by
        have h10 : n % 10 < 10 := Nat.mod_lt _ (by omega)
        generalize n % 10 = k at h10 ⊢
        interval_cases k <;> decide
      have hih : digitsVal (natToDigits (n / 10)) = n / 10 :=
        ih (n / 10) (Nat.div_lt_self (by omega) (by omega))
      unfold digitsVal at hih
      rw [hih]
      show 10 * (n / 10) + ((Char.ofNat (48 + n % 10)).toNat - 48) = n
      rw [hofNat]
      omega

theorem intStrVal_intToDec (i : Int) : intStrVal (intToDec i) = i := by
  unfold intToDec
  split
  · next h =>
    have hstrip : stripNeg ('-' :: natToDigits i.natAbs) =
        (true, natToDigits i.natAbs) := by
      rw [stripNeg, if_pos rfl]
    unfold intStrVal
    show (let p := stripNeg ('-' :: natToDigits i.natAbs); _) = i
    rw [hstrip]
    show -(digitsVal (natToDigits i.natAbs) : Int) = i
    rw [digitsVal_natToDigits]
    omega
  · next h =>
    have hstrip : stripNeg (natToDigits i.natAbs) =
        (false, natToDigits i.natAbs) := by
      have h2 := stripNeg_sign_append false (natToDigits i.natAbs)
        (natToDigits_ne_nil _)
        (fun c hc => natToDigits_all_digits _ c (List.mem_of_mem_head? hc))
      rw [if_neg (by decide), List.nil_append] at h2
      exact h2
    unfold intStrVal
    show (let p := stripNeg (natToDigits i.natAbs); _) = i
    rw [hstrip]
    show (digitsVal (natToDigits i.natAbs) : Int) = i
    rw [digitsVal_natToDigits]
    omega

theorem isIntString_intToDec (i : Int) : isIntString (intToDec i) = true := by
  obtain ⟨neg, ds, hne, hd, hs⟩ := intPattern_intToDec i
  exact isIntString_of_pattern hne hd hs

theorem longFromValue_num (a : Int) (h1 : -(2 ^ 63) ≤ a) (h2 : a < 2 ^ 63) :
    longFromValue (.jnum (a : ℚ)) = a := by
  rw [longFromValue]
  rw [Rat.num_intCast, Rat.den_intCast]
  rw [show ((1 : Nat) : Int) = 1 from rfl, Int.tdiv_one a]
  exact toSigned64_wrap a h1 h2

theorem longFromValue_str_intToDec (a : Int) (h1 : -(2 ^ 63) ≤ a)
    (h2 : a < 2 ^ 63) : longFromValue (.jstr (intToDec a)) = a := by
  rw [longFromValue, intStrVal_intToDec]
  exact toSigned64_wrap a h1 h2

theorem convertStringNumbers_str_shape (s : String) :
    (∃ q, convertStringNumbers (.jstr s) = .jnum q) ∨
      convertStringNumbers (.jstr s) = .jstr s := by
  rw [convertStringNumbers_str]
  split
  · split
    · exact Or.inl ⟨_, rfl⟩
    · exact Or.inr rfl
  · split
    · exact Or.inl ⟨_, rfl⟩
    · exact Or.inr rfl

theorem fromObjectA_of_decoded (a : Int) (s : String)
    (h1 : -(2 ^ 63) ≤ a) (h2 : a < 2 ^ 63)
    (hstable : jsToString (convertStringNumbers (.jstr s)) = s) :
    fromObjectA (convertStringNumbers (toObjectA ⟨some a, some s⟩)) =
      some ⟨some a, some s⟩ := by
  have hconva : convertStringNumbers (.jstr (intToDec a)) =
      (if isSafeInteger a then .jnum ((a : Int) : ℚ) else .jstr (intToDec a)) := by
    rw [convertStringNumbers_str, if_pos (isIntString_intToDec a),
      intStrVal_intToDec]
  have hobj : convertStringNumbers (toObjectA ⟨some a, some s⟩) =
      .jobj [("a", convertStringNumbers (.jstr (intToDec a))),
             ("b", convertStringNumbers (.jstr s))] := by
    show convertStringNumbers
      (.jobj [("a", .jstr (intToDec a)), ("b", .jstr s)]) = _
    rw [convertStringNumbers_obj]
    rfl
  rw [hobj, hconva]
  by_cases hsafe : isSafeInteger a = true
  · rw [if_pos hsafe]
    rcases convertStringNumbers_str_shape s with ⟨q, hq⟩ | hq <;> rw [hq]
    · rw [hq] at hstable
      show some (MsgARec.mk (some (longFromValue (.jnum ((a : Int) : ℚ))))
        (some (jsToString (.jnum q)))) = some (MsgARec.mk (some a) (some s))
      rw [longFromValue_num a h1 h2, hstable]
    · rw [hq] at hstable
      show some (MsgARec.mk (some (longFromValue (.jnum ((a : Int) : ℚ))))
        (some (jsToString (.jstr s)))) = some (MsgARec.mk (some a) (some s))
      rw [longFromValue_num a h1 h2, hstable]
  · rw [if_neg hsafe]
    rcases convertStringNumbers_str_shape s with ⟨q, hq⟩ | hq <;> rw [hq]
    · rw [hq] at hstable
      show some (MsgARec.mk (some (longFromValue (.jstr (intToDec a))))
        (some (jsToString (.jnum q)))) = some (MsgARec.mk (some a) (some s))
      rw [longFromValue_str_intToDec a h1 h2, hstable]
    · rw [hq] at hstable
      show some (MsgARec.mk (some (longFromValue (.jstr (intToDec a))))
        (some (jsToString (.jstr s)))) = some (MsgARec.mk (some a) (some s))
      rw [longFromValue_str_intToDec a h1 h2, hstable]

/-- Counterexample to C1 as stated: the empty buffer is a valid wire
encoding of `DemoKV` (every field at its default), but the
decode-then-encode pipeline produces `[8, 0, 18, 0]` — `toObject` with
`defaults: true` materializes both fields, `convertStringNumbers` turns
"0" into the number 0, and `fromObject`/`encode` then write both fields
explicitly — which is not byte-equal to the empty buffer. -/
theorem c1_roundtrip_counterexample :
    decodeA [] = some ⟨none, none⟩ ∧
    (apiDecodeA []).bind apiEncodeA = some [8, 0, 18, 0] ∧
    [8, 0, 18, 0] ≠ ([] : List Nat) := by
  refine ⟨rfl, ?_, by simp⟩
  have hstable : jsToString (convertStringNumbers (.jstr "")) = "" := by
    rw [convertStringNumbers_str, if_neg (by decide), if_neg (by decide),
      jsToString_str]
  show apiEncodeA (toObjectA ⟨some 0, some ""⟩) = some [8, 0, 18, 0]
  unfold apiEncodeA
  rw [fromObjectA_of_decoded 0 "" (by norm_num) (by norm_num) hstable]
  rfl

/-- C1 amended: byte-equal round-tripping holds on the canonical image of
the composite encoder — buffers whose fields are all explicitly present,
in field order, with minimal varints — provided the string field's value
survives the encode normalization (`String(convertStringNumbers(s)) = s`;
the failing inputs are exactly buffers omitting default-valued fields,
non-canonical encodings, and strings such as "01" that normalization
rewrites); and for every message value, decoding its encoding yields
exactly its JSON-safe projection under the decode output policy. -/
theorem c1_roundtrip_amended :
    (∀ (a : Int) (s : String),
        -(2 ^ 63) ≤ a → a < 2 ^ 63 → s.data.length < 2 ^ 64 →
        (∀ c ∈ s.data, c.toNat < 128) →
        jsToString (convertStringNumbers (.jstr s)) = s →
        (apiDecodeA (encodeA ⟨some a, some s⟩)).bind apiEncodeA =
          some (encodeA ⟨some a, some s⟩)) ∧
    (∀ m : MsgARec,
        (∀ v, m.a = some v → -(2 ^ 63) ≤ v ∧ v < 2 ^ 63) →
        (∀ s, m.b = some s → s.data.length < 2 ^ 64) →
        apiDecodeA (encodeA m) = some (toObjectA m)) := by
  constructor
  · intro a s ha1 ha2 hlen hascii hstable
    have hdec : decodeA (encodeA ⟨some a, some s⟩) = some ⟨some a, some s⟩ :=
      decodeA_encodeA ⟨some a, some s⟩
        (fun v hv => by cases hv; exact ⟨ha1, ha2⟩)
        (fun t ht => by cases ht; exact hlen)
    unfold apiDecodeA
    rw [hdec]
    show apiEncodeA (toObjectA ⟨some a, some s⟩) = _
    unfold apiEncodeA
    rw [fromObjectA_of_decoded a s ha1 ha2 hstable]
    rfl
  · intro m ha hb
    unfold apiDecodeA
    rw [decodeA_encodeA m ha hb]
    rfl

/-- Witness for the amended C1: a canonical buffer holding the 64-bit
value 2^60 and the string "hi" round-trips byte-equal, and decoding the
encoding of a value with only the int64 field set projects to its JSON
form. -/
theorem c1_roundtrip_amended_witness :
    (apiDecodeA (encodeA ⟨some (2 ^ 60), some "hi"⟩)).bind apiEncodeA =
      some (encodeA ⟨some (2 ^ 60), some "hi"⟩) ∧
    apiDecodeA (encodeA ⟨some 5, none⟩) = some (toObjectA ⟨some 5, none⟩) := by
  constructor
  · refine c1_roundtrip_amended.1 (2 ^ 60) "hi" (by norm_num) (by norm_num)
      (by norm_num) (by decide) ?_
    rw [convertStringNumbers_str, if_neg (by decide), if_neg (by decide),
      jsToString_str]
  · exact c1_roundtrip_amended.2 ⟨some 5, none⟩
      (fun v hv => by cases hv; norm_num)
      (fun s hs => by cases hs)

/-! ## C3: decode output policy (`toObject` with `longs: String`,
`enums: String`, `bytes: String`, `defaults: true`) -/

/-- A decoded `DemoRec` message instance: `int64` field `y` (1), enum
field `e` (2), `bytes` field `d` (3). -/
structure MsgBRec where
  y : Option Int
  e : Option Int
  d : Option (List Nat)
  deriving DecidableEq

/-- The protobufjs reflection decode loop for `DemoRec` (enum fields are
read as `int32`; any varint value is accepted — proto3 enums are open). -/
def decodeFieldsB : Nat → MsgBRec → List Nat → Option MsgBRec
  | _, acc, [] => some acc
  | 0, _, _ :: _ => none
  | fuel + 1, acc, b :: bs =>
    match varintDec (b :: bs) with
    | none => none
    | some (key, r1) =>
      let tag := key % 2 ^ 32
      if tag / 8 = 1 ∧ tag % 8 = 0 then
        match varintDec r1 with
        | some (v, r2) =>
          decodeFieldsB fuel { acc with y := some (toSigned64 v) } r2
        | none => none
      else if tag / 8 = 2 ∧ tag % 8 = 0 then
        match varintDec r1 with
        | some (v, r2) =>
          decodeFieldsB fuel { acc with e := some (toSigned32 v) } r2
        | none => none
      else if tag / 8 = 3 ∧ tag % 8 = 2 then
        match varintDec r1 with
        | some (len, r2) =>
          if len ≤ r2.length then
            decodeFieldsB fuel { acc with d := some (r2.take len) }
              (r2.drop len)
          else none
        | none => none
      else
        match skipData fuel (tag % 8) r1 with
        | some r2 => decodeFieldsB fuel acc r2
        | none => none

/-- `DemoRec.decode(buffer)`. -/
def decodeB (bytes : List Nat) : Option MsgBRec :=
  decodeFieldsB bytes.length ⟨none, none, none⟩ bytes

/-- The values of the demo enum (`DemoMode`), id to symbolic name. -/
def demoEnumNames : List (Int × String) :=
  [(0, "MODE_UNSET"), (1, "MODE_ACTIVE")]

/-- Name of an enum tag, when the tag is declared. -/
def lookupEnumName (v : Int) : Option String :=
  (demoEnumNames.find? (fun p => p.1 = v)).map (fun p => p.2)

/-- The base64 alphabet. -/
def base64Chars : List Char :=
  "ABCDEFGHIJKLMNOPQRSTUVWXYZabcdefghijklmnopqrstuvwxyz0123456789+/".data

/-- One base64 output character. -/
def b64chr (i : Nat) : Char :=
  base64Chars.getD i 'A'

/-- Standard base64 encoding with padding (protobufjs
`util.base64.encode`, used by `toObject` with `bytes: String`). -/
def base64Enc : List Nat → List Char
  | [] => []
  | [b1] => [b64chr (b1 / 4), b64chr (b1 % 4 * 16), '=', '=']
  | [b1, b2] =>
    [b64chr (b1 / 4), b64chr (b1 % 4 * 16 + b2 / 16), b64chr (b2 % 16 * 4), '=']
  | b1 :: b2 :: b3 :: rest =>
    b64chr (b1 / 4) :: b64chr (b1 % 4 * 16 + b2 / 16) ::
      b64chr (b2 % 16 * 4 + b3 / 64) :: b64chr (b3 % 64) :: base64Enc rest

/-- Base64 string of a byte array. -/
def base64Str (bs : List Nat) : String :=
  ⟨base64Enc bs⟩

/-- `DemoRec.toObject(decoded, { longs: String, enums: String, bytes:
String, defaults: true })`: the 64-bit field renders as a decimal string,
the enum field as its symbolic name when the tag has one and as the raw
number otherwise, the bytes field as base64; absent fields render as
their type's defaults. -/
def toObjectB (m : MsgBRec) : JVal :=
  .jobj
    [("y", .jstr (intToDec (m.y.getD 0))),
     ("e",
      match lookupEnumName (m.e.getD 0) with
      | some nm => .jstr nm
      | none => .jnum ((m.e.getD 0 : Int) : ℚ)),
     ("d", .jstr (base64Str (m.d.getD [])))]

/-- The `/api/decode` pipeline for `DemoRec`. -/
def apiDecodeB (bytes : List Nat) : Option JVal :=
  (decodeB bytes).map toObjectB

/-- String-ness test on a JSON value. -/
def JVal.isStr : JVal → Bool
  | .jstr _ => true
  | _ => false

/-- Counterexample to C3 as stated: the buffer `[16, 5]` is a valid
encoding of `DemoRec` with enum tag 5, which has no declared name; the
decoded object's enum field is the JSON number 5, not a symbolic name
string, contradicting "every enumerated field renders as its symbolic
name string (never its integer tag)". -/
theorem c3_decode_policy_counterexample :
    decodeB [16, 5] = some ⟨none, some 5, none⟩ ∧
    apiDecodeB [16, 5] =
      some (.jobj [("y", .jstr (intToDec 0)), ("e", .jnum ((5 : Int) : ℚ)),
        ("d", .jstr (base64Str []))]) ∧
    intToDec 0 = "0" ∧ base64Str [] = "" ∧
    JVal.isStr (.jnum ((5 : Int) : ℚ)) = false := by
  refine ⟨by decide, rfl, ?_, rfl, rfl⟩
  unfold intToDec
  rw [if_neg (by omega)]
  rw [Int.natAbs_zero]
  rw [natToDigits_lt10 0 (by omega)]

/-- C3 amended: for every successful decode of a buffer as `DemoRec`, the
resulting object carries all three fields (absent wire fields filled with
defaults): the 64-bit field as the decimal string of its value, the bytes
field as its base64 string, and the enum field as its symbolic name
string when the decoded tag is declared in the enum — but as the raw
integer when it is not. -/
theorem c3_decode_output_policy (bytes : List Nat) (r : MsgBRec)
    (h : decodeB bytes = some r) :
    apiDecodeB bytes =
      some (.jobj
        [("y", .jstr (intToDec (r.y.getD 0))),
         ("e",
          match lookupEnumName (r.e.getD 0) with
          | some nm => .jstr nm
          | none => .jnum ((r.e.getD 0 : Int) : ℚ)),
         ("d", .jstr (base64Str (r.d.getD [])))]) ∧
    IntPattern (intToDec (r.y.getD 0)) ∧
    ((∃ nm, lookupEnumName (r.e.getD 0) = some nm ∧
        (match lookupEnumName (r.e.getD 0) with
         | some nm => JVal.jstr nm
         | none => JVal.jnum ((r.e.getD 0 : Int) : ℚ)) = .jstr nm) ∨
     (lookupEnumName (r.e.getD 0) = none ∧
        (match lookupEnumName (r.e.getD 0) with
         | some nm => JVal.jstr nm
         | none => JVal.jnum ((r.e.getD 0 : Int) : ℚ)) =
          .jnum ((r.e.getD 0 : Int) : ℚ))) := by
  refine ⟨?_, intPattern_intToDec _, ?_⟩
  · unfold apiDecodeB
    rw [h]
    rfl
  · cases he : lookupEnumName (r.e.getD 0) with
    | some nm => exact Or.inl ⟨nm, rfl, rfl⟩
    | none => exact Or.inr ⟨rfl, rfl⟩

/-- Witness for the amended C3 at concrete buffers: an unknown enum tag
renders as the number 5, a known tag as its name, and the empty buffer
decodes to an object with all three default-valued fields present. -/
theorem c3_decode_output_policy_witness :
    apiDecodeB [16, 5] =
      some (.jobj [("y", .jstr (intToDec 0)), ("e", .jnum ((5 : Int) : ℚ)),
        ("d", .jstr (base64Str []))]) ∧
    apiDecodeB [16, 1] =
      some (.jobj [("y", .jstr (intToDec 0)), ("e", .jstr "MODE_ACTIVE"),
        ("d", .jstr (base64Str []))]) ∧
    apiDecodeB [] =
      some (.jobj [("y", .jstr (intToDec 0)), ("e", .jstr "MODE_UNSET"),
        ("d", .jstr (base64Str []))]) := by
  refine ⟨?_, ?_, ?_⟩
  · exact (c3_decode_output_policy [16, 5] ⟨none, some 5, none⟩ (by decide)).1
  · exact (c3_decode_output_policy [16, 1] ⟨none, some 1, none⟩ (by decide)).1
  · exact (c3_decode_output_policy [] ⟨none, none, none⟩ (by decide)).1
